import Mathlib

/-!
Verification model of the preview-synchronization engine of the
obsidian-html-css-editor plugin (src/src/HTMLCSSEditorView.ts and the
animation monitor in src/unnamed/part_000).

Modelling conventions:
* JS strings are Lean `String`s; pattern matching on text is done on
  `List Char` (`String.data`).
* The JS regular expressions used by the sanitizers are deterministic for
  the specific patterns involved (`[^>]*` and `[^)]*` are greedy runs that
  stop at the first excluded character, `[\s\S]*?` is a lazy run realised
  as a first-occurrence search), so each pattern is embedded as a direct
  scanning function.
* `\s` is modelled as the six ASCII whitespace characters; the
  blank-string test `!s.trim()` is modelled as "every character is
  whitespace" (`String.trim` strips exactly the whitespace characters).
* Case-insensitive (`i` flag) comparison is `ciEq` (equality of
  `Char.toLower` images).
* The JS `Map` (insertion ordered) backing the Sass cache is an
  insertion-ordered association list.
-/

/-- Case-insensitive character equality, the `i` regex flag. -/
def ciEq (a b : Char) : Bool := a.toLower == b.toLower

/-- The six ASCII characters matched by the JS regex class `\s`
(Unicode whitespace is not modelled). -/
def jsWsChars : List Char := [' ', '\t', '\n', '\r', '\x0b', '\x0c']

/-- Membership in the modelled `\s` class. -/
def isJsWs (c : Char) : Bool := jsWsChars.contains c

/-- The receiver is entirely whitespace, i.e. the JS test `!s.trim()`
succeeds (`trim` removes exactly whitespace). -/
def allWs (l : List Char) : Bool := l.all isJsWs

/-- Blank test on strings: `!s.trim()` in the source. -/
def isBlank (s : String) : Bool := allWs s.data

/-- `ciPre pat s`: `pat` matches case-insensitively at the front of `s`. -/
def ciPre : List Char → List Char → Bool
  | [], _ => true
  | _ :: _, [] => false
  | a :: as, b :: bs => ciEq a b && ciPre as bs

/-- `ciFull a b`: `a` and `b` have the same length and agree
case-insensitively position by position. -/
def ciFull : List Char → List Char → Bool
  | [], [] => true
  | [], _ :: _ => false
  | _ :: _, [] => false
  | a :: as, b :: bs => ciEq a b && ciFull as bs

/-- Scan `[^>]*>`: number of characters consumed up to and including the
first `>`, or `none` when there is no `>`. -/
def gtScan : List Char → Option Nat
  | [] => none
  | c :: cs => if c = '>' then some 1 else (gtScan cs).map (· + 1)

/-- Scan `[^)]*)`: number of characters consumed up to and including the
first `)`, or `none` when there is no `)`. -/
def parScan : List Char → Option Nat
  | [] => none
  | c :: cs => if c = ')' then some 1 else (parScan cs).map (· + 1)

/-- Lazy search `[\s\S]*?pat`: characters consumed up to and including
the first case-insensitive occurrence of `pat` (`pat` nonempty). -/
def occScan (pat : List Char) : List Char → Option Nat
  | [] => none
  | c :: cs =>
    if ciPre pat (c :: cs) then some pat.length
    else (occScan pat cs).map (· + 1)

/-- `pat` occurs case-insensitively somewhere in the list. -/
def occursCI (pat : List Char) : List Char → Bool
  | [] => false
  | c :: cs => ciPre pat (c :: cs) || occursCI pat cs

/-- Length of the leading `\s*` run. -/
def wsLen : List Char → Nat
  | [] => 0
  | c :: cs => if isJsWs c then wsLen cs + 1 else 0

/-- One dangerous-markup regex `/<name[^>]*>[\s\S]*?<\/name>/gi`
(with `closer = none` for the closerless `/<embed[^>]*>/gi`). -/
structure TagPat where
  opener : List Char
  closer : Option (List Char)

/-- Length of the match of a dangerous-markup pattern at the front of
`s`, mirroring the JS engine: the opener literal (case-insensitive), the
greedy `[^>]*` run up to the first `>`, then — for block patterns — the
lazy run up to the first occurrence of the closer. -/
def matchLen (p : TagPat) (s : List Char) : Option Nat :=
  if ciPre p.opener s then
    match gtScan (s.drop p.opener.length) with
    | none => none
    | some g =>
      match p.closer with
      | none => some (p.opener.length + g)
      | some cl =>
        match occScan cl (s.drop (p.opener.length + g)) with
        | none => none
        | some j => some (p.opener.length + g + j)
  else none

/-- Fuel-indexed global replace: at every position try the pattern; on a
match emit the replacement and resume after the match, otherwise keep the
character.  This is `String.prototype.replace` with a global regex. -/
def scanRepF (p : TagPat) (rep : List Char) : Nat → List Char → List Char
  | _, [] => []
  | 0, s => s
  | fuel + 1, c :: cs =>
    match matchLen p (c :: cs) with
    | some n => rep ++ scanRepF p rep fuel (cs.drop (n - 1))
    | none => c :: scanRepF p rep fuel cs

/-- Global replace of every match of `p` by `rep`. -/
def scanRep (p : TagPat) (rep : List Char) (s : List Char) : List Char :=
  scanRepF p rep s.length s

/-- `pattern.test(s)`: some suffix of `s` starts a match. -/
def hasMatch (p : TagPat) : List Char → Bool
  | [] => false
  | c :: cs => (matchLen p (c :: cs)).isSome || hasMatch p cs

/-- `/<script[^>]*>[\s\S]*?<\/script>/gi` -/
def scriptPat : TagPat := ⟨"<script".data, some "</script>".data⟩

/-- `/<iframe[^>]*>[\s\S]*?<\/iframe>/gi` -/
def iframePat : TagPat := ⟨"<iframe".data, some "</iframe>".data⟩

/-- `/<object[^>]*>[\s\S]*?<\/object>/gi` -/
def objectPat : TagPat := ⟨"<object".data, some "</object>".data⟩

/-- `/<embed[^>]*>/gi` -/
def embedPat : TagPat := ⟨"<embed".data, none⟩

/-- `/<form[^>]*>[\s\S]*?<\/form>/gi` -/
def formPat : TagPat := ⟨"<form".data, some "</form>".data⟩

/-- The `dangerousPatterns` array of `validateAndSanitizeHTML`, in source
order. -/
def dangerousPatterns : List TagPat :=
  [scriptPat, iframePat, objectPat, embedPat, formPat]

/-- The fixed replacement comment of `validateAndSanitizeHTML`. -/
def unsafeComment : List Char :=
  "<!-- Unsafe element removed for security -->".data

/-- One `if (pattern.test(sanitized)) sanitized = sanitized.replace(...)`
step of `validateAndSanitizeHTML`. -/
def sanitizeStep (s : List Char) (p : TagPat) : List Char :=
  if hasMatch p s then scanRep p unsafeComment s else s

/-- `validateAndSanitizeHTML` from src/src/HTMLCSSEditorView.ts: blank
input is replaced by a fixed placeholder, otherwise each dangerous
pattern is replaced (in order) by the fixed removal comment. -/
def validateAndSanitizeHTML (html : String) : String :=
  if isBlank html then "<p><em>No HTML content to preview</em></p>"
  else ⟨dangerousPatterns.foldl sanitizeStep html.data⟩

/-- One dangerous-CSS regex: either `/word\s*term/gi` (for
`javascript\s*:`, `expression\s*\(`, `behavior\s*:`) or the composite
`/@import\s+url\s*\([^)]*\)/gi`. -/
inductive CssPat where
  | word (w : List Char) (term : Char)
  | importUrl

/-- Length of the match of `/word\s*term/gi` at the front of `s`: the
word literal (case-insensitive), the greedy `\s*` run, then the
terminator character. -/
def matchLenWord (w : List Char) (t : Char) (s : List Char) : Option Nat :=
  if ciPre w s then
    match ((s.drop w.length).drop (wsLen (s.drop w.length))).head? with
    | some c =>
      if c = t then some (w.length + wsLen (s.drop w.length) + 1) else none
    | none => none
  else none

/-- Length of the match of `/@import\s+url\s*\([^)]*\)/gi` at the front
of `s`. -/
def matchLenImport (s : List Char) : Option Nat :=
  if ciPre "@import".data s then
    if wsLen (s.drop 7) = 0 then none
    else if ciPre "url".data ((s.drop 7).drop (wsLen (s.drop 7))) then
      match ((s.drop 7).drop (wsLen (s.drop 7) + 3)).drop
          (wsLen ((s.drop 7).drop (wsLen (s.drop 7) + 3))) with
      | '(' :: r3 =>
        (parScan r3).map (fun q2 =>
          7 + wsLen (s.drop 7) + 3 +
            wsLen ((s.drop 7).drop (wsLen (s.drop 7) + 3)) + 1 + q2)
      | _ => none
    else none
  else none

/-- Length of the match of a dangerous-CSS pattern at the front of `s`. -/
def matchLenC : CssPat → List Char → Option Nat
  | .word w t, s => matchLenWord w t s
  | .importUrl, s => matchLenImport s

/-- Fuel-indexed global replace for CSS patterns. -/
def scanRepCF (p : CssPat) (rep : List Char) : Nat → List Char → List Char
  | _, [] => []
  | 0, s => s
  | fuel + 1, c :: cs =>
    match matchLenC p (c :: cs) with
    | some n => rep ++ scanRepCF p rep fuel (cs.drop (n - 1))
    | none => c :: scanRepCF p rep fuel cs

/-- Global replace of every match of the CSS pattern `p` by `rep`. -/
def scanRepC (p : CssPat) (rep : List Char) (s : List Char) : List Char :=
  scanRepCF p rep s.length s

/-- `pattern.test(s)` for a CSS pattern. -/
def hasMatchC (p : CssPat) : List Char → Bool
  | [] => false
  | c :: cs => (matchLenC p (c :: cs)).isSome || hasMatchC p cs

/-- The `dangerousPatterns` array of `validateAndSanitizeCSS`, in source
order. -/
def dangerousCssPatterns : List CssPat :=
  [.importUrl, .word "javascript".data ':', .word "expression".data '(',
   .word "behavior".data ':']

/-- The fixed replacement comment of `validateAndSanitizeCSS`. -/
def unsafeCssComment : List Char := "/* Unsafe CSS removed */".data

/-- One guarded replace step of `validateAndSanitizeCSS`. -/
def sanitizeStepC (s : List Char) (p : CssPat) : List Char :=
  if hasMatchC p s then scanRepC p unsafeCssComment s else s

/-- `validateAndSanitizeCSS` from src/src/HTMLCSSEditorView.ts. -/
def validateAndSanitizeCSS (css : String) : String :=
  if isBlank css then "/* No CSS content */"
  else ⟨dangerousCssPatterns.foldl sanitizeStepC css.data⟩

/-!
The Sass compiler wrapper `compileSass` and its bounded cache
(src/src/HTMLCSSEditorView.ts, `private sassCache: Map<string, string>`).
The external `sass.compileString` collaborator is a parameter: it either
returns compiled CSS or throws with an error message.  UI status updates
(`compilationStatusEl`) and timing are elided: they do not affect the
returned text or the cache.
-/

/-- Insertion-ordered map lookup (`Map.get` / `Map.has`). -/
def mapGet (k : String) : List (String × String) → Option String
  | [] => none
  | e :: es => if e.1 = k then some e.2 else mapGet k es

/-- `Map.delete(k)`: remove the entry with key `k` (keys are unique by
construction of a JS `Map`). -/
def mapDelete (k : String) (m : List (String × String)) :
    List (String × String) :=
  m.filter (fun e => e.1 ≠ k)

/-- `Map.set(k, v)`: update in place if present, else append (insertion
order preserved). -/
def mapSet (k v : String) (m : List (String × String)) :
    List (String × String) :=
  if (mapGet k m).isSome then
    m.map (fun e => if e.1 = k then (k, v) else e)
  else m ++ [(k, v)]

/-- `Map.keys().next().value`: the oldest-inserted key. -/
def mapFirstKey (m : List (String × String)) : Option String :=
  (m.head?).map Prod.fst

/-- Result of one `compileSass` call: the returned text, the cache
afterwards, and whether the external compiler was invoked. -/
structure SassOutcome where
  output : String
  cache : List (String × String)
  invoked : Bool
deriving Repr

/-- `compileSass` from src/src/HTMLCSSEditorView.ts.  `isSassMode` is
`this.viewState.isSassMode`; `compiler` is the external
`sass.compileString` (`.error msg` models a thrown exception with
message `msg`). -/
def compileSass (isSassMode : Bool) (compiler : String → Except String String)
    (cache : List (String × String)) (sassContent : String) : SassOutcome :=
  if !isSassMode || isBlank sassContent then
    ⟨sassContent, cache, false⟩
  else
    match mapGet sassContent cache with
    | some cached => ⟨cached, cache, false⟩
    | none =>
      match compiler sassContent with
      | .ok css =>
        let cache1 :=
          if cache.length > 10 then
            match mapFirstKey cache with
            | some firstKey => mapDelete firstKey cache
            | none => cache
          else cache
        ⟨css, mapSet sassContent css cache1, true⟩
      | .error errorMessage =>
        ⟨"/* Sass compilation error: " ++ errorMessage ++ " */\n" ++
          sassContent, cache, true⟩

/-- Fold a sequence of `compileSass` calls, threading the cache. -/
def compileSeq (isSassMode : Bool) (compiler : String → Except String String)
    (cache : List (String × String)) : List String →
    List (String × String)
  | [] => cache
  | s :: ss =>
    compileSeq isSassMode compiler
      (compileSass isSassMode compiler cache s).cache ss

/-!
The change-aggregator (debounce scheduler): `onContentChange` and
`clearUpdateTimeout` from src/src/HTMLCSSEditorView.ts, together with an
explicit model of the host timer queue (`setTimeout` / `clearTimeout`)
so that "at most one pending job" is a provable invariant rather than a
modelling artifact.  Export-button throttling is elided (it schedules
nothing).  A fired job runs `updatePreview`, which renders the current
view-state content.
-/

/-- Plugin settings read by `onContentChange`. -/
structure Settings where
  autoRefresh : Bool
  refreshDelay : Nat

/-- The adaptive delay computed in `onContentChange`: double the base
delay, capped at 1000 ms, when markup + style exceed 5000 characters. -/
def adaptiveDelay (refreshDelay : Nat) (htmlContent cssContent : String) :
    Nat :=
  if htmlContent.length + cssContent.length > 5000 then
    min (refreshDelay * 2) 1000
  else refreshDelay

/-- A job in the host timer queue, created by `setTimeout`. -/
structure Job where
  id : Nat
  fireAt : Nat
deriving Repr

/-- Scheduler state: current time, the host timer queue, the next fresh
timer id, the view's `updateTimeout` handle, the current view-state
content, and the renders performed so far (in order, with the content
each one rendered). -/
structure SchedState where
  now : Nat
  jobs : List Job
  nextId : Nat
  updateTimeout : Option Nat
  htmlContent : String
  cssContent : String
  renders : List (String × String)
deriving Repr

/-- Initial scheduler state. -/
def schedInit : SchedState := ⟨0, [], 0, none, "", "", []⟩

/-- `clearUpdateTimeout`: if a handle is held, `clearTimeout` it (remove
the job from the host queue) and null the handle. -/
def clearUpdateTimeout (st : SchedState) : SchedState :=
  match st.updateTimeout with
  | some tid =>
    { st with jobs := st.jobs.filter (fun j => j.id ≠ tid),
              updateTimeout := none }
  | none => st

/-- `onContentChange`: store the new editor content; when auto-refresh is
on, cancel the pending job and schedule `updatePreview` after the
adaptive delay. -/
def onContentChange (settings : Settings) (html css : String)
    (st : SchedState) : SchedState :=
  let st := { st with htmlContent := html, cssContent := css }
  if settings.autoRefresh then
    let st := clearUpdateTimeout st
    let d := adaptiveDelay settings.refreshDelay html css
    { st with
        jobs := st.jobs ++ [⟨st.nextId, st.now + d⟩],
        updateTimeout := some st.nextId,
        nextId := st.nextId + 1 }
  else st

/-- The host fires one due job: it leaves the queue and its callback
(`updatePreview`) renders the current view-state content. -/
def fireJob (st : SchedState) (j : Job) : SchedState :=
  { st with
      jobs := st.jobs.filter (fun j2 => j2.id ≠ j.id),
      renders := st.renders ++ [(st.htmlContent, st.cssContent)] }

/-- Advance the clock to `t`, firing every job whose time has come. -/
def advanceTo (t : Nat) (st : SchedState) : SchedState :=
  let due := st.jobs.filter (fun j => j.fireAt ≤ t)
  due.foldl fireJob { st with now := t }

/-- An external event: an edit notification or the passage of time. -/
inductive SchedOp where
  | change (html css : String)
  | advance (t : Nat)

/-- Run one event against the scheduler. -/
def schedStep (settings : Settings) (st : SchedState) : SchedOp → SchedState
  | .change h c => onContentChange settings h c st
  | .advance t => advanceTo t st

/-- Run a sequence of events from a state. -/
def runSched (settings : Settings) (st : SchedState) (ops : List SchedOp) :
    SchedState :=
  ops.foldl (schedStep settings) st

/-!
The multi-sink renderer: `updatePreview` together with
`renderPreviewContent` (primary sink) and `renderPreviewContentToFrame`
(floating/fullscreen sinks), src/src/HTMLCSSEditorView.ts.  A frame is
modelled by whether touching its document throws (torn down / isolated)
and whether `contentDocument` is non-null; each write helper catches its
own exception and logs, so a write outcome — never an exception —
results.
-/

/-- A rendering frame as the write helpers observe it. -/
structure FrameB where
  accessThrows : Bool
  hasDoc : Bool

/-- Outcome of one guarded write. -/
inductive WriteAttempt where
  | wrote
  | skippedNoDoc
  | failedLogged
deriving DecidableEq, Repr

/-- `renderPreviewContentToFrame`: try/catch around
`frame.contentDocument` + `doc.open/write/close`; an exception is caught
and logged. -/
def renderPreviewContentToFrame (f : FrameB) : WriteAttempt :=
  if f.accessThrows then .failedLogged
  else if f.hasDoc then .wrote
  else .skippedNoDoc

/-- `renderPreviewContent` (primary sink) has the same guarded
open/write/close structure. -/
def renderPreviewContent (f : FrameB) : WriteAttempt :=
  if f.accessThrows then .failedLogged
  else if f.hasDoc then .wrote
  else .skippedNoDoc

/-- Which sink a write went to. -/
inductive SinkKind where
  | primary
  | floating
  | fullscreen
deriving DecidableEq, Repr

/-- The sink-liveness part of the view state inspected during a render:
`this.pipFrame` and `this.fullscreenOverlay` (whose inner frame is found
by a query that may fail). -/
structure PreviewSinks where
  previewFrame : FrameB
  pipFrame : Option FrameB
  fullscreenOverlay : Option (Option FrameB)

/-- The fan-out performed by one `updatePreview` run: the primary sink is
always written; the floating sink iff `pipFrame` is live; the fullscreen
sink iff the overlay is live and its frame is found.  Each write is
independently guarded. -/
def updatePreview (st : PreviewSinks) : List (SinkKind × WriteAttempt) :=
  [(.primary, renderPreviewContent st.previewFrame)] ++
  (match st.pipFrame with
   | some f => [(.floating, renderPreviewContentToFrame f)]
   | none => []) ++
  (match st.fullscreenOverlay with
   | some (some f) => [(.fullscreen, renderPreviewContentToFrame f)]
   | some none => []
   | none => [])

/-!
The animation performance sampler: `AnimationPerformanceMonitor` from
src/unnamed/part_000.  One animation-frame callback (`monitor`) is
modelled by `monitorFrame`: the introspection of each animated element
either throws (`.error`) — e.g. `getComputedStyle` across an isolation
boundary — or yields the element's running animation name (`.ok none`
when the name is empty or "none").  The `forEach` aborts at the first
throw; the `catch` swallows it; crucially, the re-arming
`requestAnimationFrame(monitor)` sits inside the `try`, after the loop.
-/

/-- One per-animation sample. -/
structure AnimEntry where
  name : String
  startTime : Nat
  frameCount : Nat
deriving DecidableEq, Repr

/-- Sampler state: the samples map and whether an animation-frame
callback is pending. -/
structure MonitorState where
  animations : List AnimEntry
  rafPending : Bool
deriving DecidableEq, Repr

/-- Record one element running animation `n`: create the entry with
`frameCount = 0` if unseen, then increment its count. -/
def recordAnim (now : Nat) (anims : List AnimEntry) (n : String) :
    List AnimEntry :=
  let anims1 :=
    if anims.any (fun e => e.name = n) then anims
    else anims ++ [⟨n, now, 0⟩]
  anims1.map (fun e =>
    if e.name = n then { e with frameCount := e.frameCount + 1 } else e)

/-- Process the animated elements in order; a throw aborts the loop,
keeping the samples recorded so far, and reports failure. -/
def processAnimated (now : Nat) :
    List (Except Unit (Option String)) → List AnimEntry →
    List AnimEntry × Bool
  | [], anims => (anims, true)
  | .error _ :: _, anims => (anims, false)
  | .ok none :: es, anims => processAnimated now es anims
  | .ok (some n) :: es, anims => processAnimated now es (recordAnim now anims n)

/-- One `monitor` animation-frame callback.  When the document is null
the callback returns without re-arming; when the element loop completes
it re-arms (`rafPending := true`); when an element throws, the error is
swallowed and — because the re-arm sits inside the `try` — no further
frame is scheduled. -/
def monitorFrame (now : Nat) (docPresent : Bool)
    (elems : List (Except Unit (Option String))) (st : MonitorState) :
    MonitorState :=
  if docPresent then
    match processAnimated now elems st.animations with
    | (anims, true) => ⟨anims, true⟩
    | (anims, false) => ⟨anims, false⟩
  else { st with rafPending := false }

/-- `startMonitoring`: bail out when the frame has no `contentWindow`,
otherwise arm the first animation-frame callback. -/
def startMonitoring (hasContentWindow : Bool) (st : MonitorState) :
    MonitorState :=
  if hasContentWindow then { st with rafPending := true } else st

/-!
The document assembler `generatePreviewContent`
(src/src/HTMLCSSEditorView.ts): Sass compilation when enabled, both
sanitizers, and the fixed document shell (the brace and apostrophe
characters of the shell are written with \x7b, \x7d and \x27 escapes).
-/

/-- Shell text before the interpolated `previewBackground`. -/
def tplHead : String :=
  "<!DOCTYPE html>\n<html lang=\"en\">\n<head>\n    <meta charset=\"UTF-8\">\n    <meta name=\"viewport\" content=\"width=device-width, initial-scale=1.0\">\n    <title>HTML/CSS Preview</title>\n    <style>\n        /* Base styles */\n        body \x7b\n            margin: 0;\n            padding: 4px;\n            font-family: -apple-system, BlinkMacSystemFont, \x27Segoe UI\x27, Roboto, sans-serif;\n            background-color: "

/-- Shell text between `previewBackground` and the sanitized CSS. -/
def tplAfterBg : String :=
  ";\n            line-height: 1.6;\n            box-sizing: border-box;\n            overflow: hidden; /* Prevent scrollbars on tiny frames */\n        \x7d\n        \n        /* User CSS */\n        "

/-- Shell text between the sanitized CSS and the sanitized HTML. -/
def tplMid : String :=
  "\n    </style>\n</head>\n<body>\n    "

/-- Shell text after the sanitized HTML: the fixed anti-navigation guard
script and the closing tags. -/
def tplTail : String :=
  "\n    \n    <script>\n        // Prevent navigation away from preview\n        window.addEventListener(\x27beforeunload\x27, function(e) \x7b\n            e.preventDefault();\n            return false;\n        \x7d);\n        \n        // Handle link clicks to prevent navigation\n        document.addEventListener(\x27click\x27, function(e) \x7b\n            if (e.target.tagName === \x27A\x27 && e.target.href) \x7b\n                e.preventDefault();\n                // Link clicked - prevented default\n            \x7d\n        \x7d);\n        \n        // Error handling for the preview content\n        window.addEventListener(\x27error\x27, function(e) \x7b\n            console.warn(\x27Preview content error:\x27, e.message);\n        \x7d);\n    </script>\n</body>\n</html>"

/-- `generatePreviewContent`: compile Sass when in Sass mode, sanitize
both parts, and interpolate them into the fixed shell. -/
def generatePreviewContent (isSassMode : Bool)
    (compiler : String → Except String String)
    (cache : List (String × String)) (previewBackground : String)
    (htmlContent cssContent : String) : String :=
  let cssContent1 :=
    if isSassMode then
      (compileSass isSassMode compiler cache cssContent).output
    else cssContent
  let validatedHTML := validateAndSanitizeHTML htmlContent
  let validatedCSS := validateAndSanitizeCSS cssContent1
  tplHead ++ previewBackground ++ tplAfterBg ++ validatedCSS ++ tplMid ++
    validatedHTML ++ tplTail

/-- Case-sensitive prefix test on character lists. -/
def litPre : List Char → List Char → Bool
  | [], _ => true
  | _ :: _, [] => false
  | a :: as, b :: bs => a == b && litPre as bs

/-- Case-sensitive occurrence of `pat` somewhere in the list. -/
def occursLit (pat : List Char) : List Char → Bool
  | [] => false
  | c :: cs => litPre pat (c :: cs) || occursLit pat cs

/-- `s.includes(pat)`: case-sensitive substring test. -/
def containsStr (s pat : String) : Bool := occursLit pat.data s.data

/-!
Helper lemmas about the cache association list.
-/

/-- Append a fresh binding: lookup finds it. -/
theorem mapGet_append_of_none (k v : String) (m : List (String × String))
    (h : mapGet k m = none) : mapGet k (m ++ [(k, v)]) = some v := by
  induction m with
  | nil => simp [mapGet]
  | cons e es ih =>
    rw [mapGet] at h
    by_cases he : e.1 = k
    · rw [if_pos he] at h
      exact absurd h (by simp)
    · rw [if_neg he] at h
      rw [List.cons_append, mapGet, if_neg he]
      exact ih h

/-- Update a present binding: lookup finds the new value. -/
theorem mapGet_update_of_isSome (k v : String) (m : List (String × String))
    (h : (mapGet k m).isSome = true) :
    mapGet k (m.map (fun e => if e.1 = k then (k, v) else e)) = some v := by
  induction m with
  | nil => simp [mapGet] at h
  | cons e es ih =>
    by_cases he : e.1 = k
    · simp [mapGet, he]
    · rw [mapGet, if_neg he] at h
      simp only [List.map_cons, if_neg he]
      rw [mapGet, if_neg he]
      exact ih h

/-- Looking up a key just set finds the value just set. -/
theorem mapGet_mapSet_self (k v : String) (m : List (String × String)) :
    mapGet k (mapSet k v m) = some v := by
  unfold mapSet
  split
  · exact mapGet_update_of_isSome k v m (by assumption)
  · rename_i hnone
    exact mapGet_append_of_none k v m (Option.not_isSome_iff_eq_none.mp hnone)

/-- `mapSet` grows the map by at most one entry. -/
theorem mapSet_length_le (k v : String) (m : List (String × String)) :
    (mapSet k v m).length ≤ m.length + 1 := by
  unfold mapSet
  split
  · simp
  · simp

/-- Deleting the key of the head entry drops at least that entry. -/
theorem mapDelete_head_length (e : String × String)
    (rest : List (String × String)) :
    (mapDelete e.1 (e :: rest)).length ≤ rest.length := by
  unfold mapDelete
  rw [List.filter_cons, if_neg (by simp)]
  exact List.length_filter_le _ _

/-- One `compileSass` call keeps the cache within 11 entries: the
eviction happens before the insert and only when the size already
exceeds 10, so the size after an insert can reach — but never exceed —
11. -/
theorem compileSass_cache_le (m : Bool)
    (compiler : String → Except String String)
    (cache : List (String × String)) (s : String)
    (h : cache.length ≤ 11) :
    (compileSass m compiler cache s).cache.length ≤ 11 := by
  unfold compileSass
  split
  · exact h
  split
  · exact h
  split
  · rename_i css heq
    dsimp only
    refine le_trans (mapSet_length_le _ _ _) ?_
    split
    · rename_i hgt
      cases cache with
      | nil => simp at hgt
      | cons e rest =>
        have h1 := mapDelete_head_length e rest
        simp only [List.length_cons] at h
        show (mapDelete e.1 (e :: rest)).length + 1 ≤ 11
        omega
    · rename_i hle
      omega
  · exact h

/-- The cache-size bound holds after every sequence of compiles. -/
theorem compileSeq_cache_le (m : Bool)
    (compiler : String → Except String String)
    (cache : List (String × String)) (ss : List String)
    (h : cache.length ≤ 11) :
    (compileSeq m compiler cache ss).length ≤ 11 := by
  induction ss generalizing cache with
  | nil => exact h
  | cons s ss ih =>
    rw [compileSeq]
    exact ih _ (compileSass_cache_le m compiler cache s h)

/-- A cache hit returns the stored value, leaves the cache unchanged and
does not invoke the compiler. -/
theorem compileSass_hit (compiler : String → Except String String)
    (cache : List (String × String)) (s v : String)
    (hb : isBlank s = false) (hm : mapGet s cache = some v) :
    compileSass true compiler cache s = ⟨v, cache, false⟩ := by
  unfold compileSass
  rw [if_neg (by simp [hb]), hm]

/-- A cache miss with a succeeding compiler returns the compiled output,
invokes the compiler, and stores the pair (evicting first when the size
already exceeds 10). -/
theorem compileSass_miss_ok (compiler : String → Except String String)
    (cache : List (String × String)) (s css : String)
    (hb : isBlank s = false) (hm : mapGet s cache = none)
    (hc : compiler s = .ok css) :
    compileSass true compiler cache s =
      ⟨css,
       mapSet s css
         (if cache.length > 10 then
            match mapFirstKey cache with
            | some firstKey => mapDelete firstKey cache
            | none => cache
          else cache),
       true⟩ := by
  unfold compileSass
  rw [if_neg (by simp [hb]), hm, hc]

/-- The compiler collaborator used by the concrete cache scenarios. -/
def okCompiler : String → Except String String := fun s => .ok ("c:" ++ s)

/-- Eleven distinct source texts. -/
def elevenTexts : List String :=
  ["t01", "t02", "t03", "t04", "t05", "t06", "t07", "t08", "t09", "t10",
   "t11"]

/-- Twelve distinct source texts. -/
def twelveTexts : List String := elevenTexts ++ ["t12"]

/-- C1, counterexample: after compiling 11 distinct source texts from an
empty cache, the cache holds 11 entries (not at most 10) and the entry
for the very first text is still present (not evicted). -/
theorem c1_cache_bound_counterexample :
    (compileSeq true okCompiler [] elevenTexts).length = 11 ∧
    mapGet "t01" (compileSeq true okCompiler [] elevenTexts) =
      some "c:t01" := by
  exact ⟨rfl, rfl⟩

/-- C1, amended: the hard cap of the compilation cache is 11, not 10 —
the eviction check runs before the insert and fires only when the size
already exceeds 10.  For every sequence of compiles from an empty cache
the size stays at most 11, and it is after compiling 12 (not 11)
distinct source texts that the first-inserted entry has been evicted
while the other 11 remain, in insertion order. -/
theorem c1_cache_bound_amended :
    (∀ (m : Bool) (compiler : String → Except String String)
      (ss : List String), (compileSeq m compiler [] ss).length ≤ 11) ∧
    mapGet "t01" (compileSeq true okCompiler [] twelveTexts) = none ∧
    (compileSeq true okCompiler [] twelveTexts).map Prod.fst =
      ["t02", "t03", "t04", "t05", "t06", "t07", "t08", "t09", "t10",
       "t11", "t12"] := by
  refine ⟨fun m compiler ss =>
    compileSeq_cache_le m compiler [] ss (by simp), rfl, rfl⟩

/-- C3, counterexample: for the blank source text `""` the claim "two
successive compiles invoke the external compiler exactly once" fails —
the blank-content early return answers both calls without any compiler
invocation at all. -/
theorem c3_cache_correctness_counterexample :
    ¬((if (compileSass true (fun s => .ok s) [] "").invoked then 1
       else 0) +
      (if (compileSass true (fun s => .ok s)
            (compileSass true (fun s => .ok s) [] "").cache "").invoked
       then 1 else 0) = 1) := by
  decide

/-- C3, amended: for a non-blank, not-yet-cached source text compiled in
Sass mode on which the external compiler succeeds, two successive
compiles invoke the compiler exactly once — the first call invokes it,
the second is answered from the cache — and the second call returns
output identical to the first.  (Blank or non-Sass-mode sources invoke
the compiler zero times, and a failing source is recompiled every call
since failures are not cached.) -/
theorem c3_cache_correctness_amended
    (compiler : String → Except String String)
    (cache : List (String × String)) (s css : String)
    (hb : isBlank s = false) (hm : mapGet s cache = none)
    (hc : compiler s = .ok css) :
    (compileSass true compiler cache s).invoked = true ∧
    (compileSass true compiler
      (compileSass true compiler cache s).cache s).invoked = false ∧
    (compileSass true compiler
      (compileSass true compiler cache s).cache s).output =
      (compileSass true compiler cache s).output := by
  rw [compileSass_miss_ok compiler cache s css hb hm hc]
  rw [compileSass_hit compiler _ s css hb (mapGet_mapSet_self s css _)]
  exact ⟨rfl, rfl, rfl⟩

/-- C3, witness for the amended theorem at a concrete input. -/
theorem c3_cache_correctness_witness :
    (compileSass true (fun _ => .ok "X") [] ".a").invoked = true ∧
    (compileSass true (fun _ => .ok "X")
      (compileSass true (fun _ => .ok "X") [] ".a").cache ".a").invoked =
      false ∧
    (compileSass true (fun _ => .ok "X")
      (compileSass true (fun _ => .ok "X") [] ".a").cache ".a").output =
      (compileSass true (fun _ => .ok "X") [] ".a").output :=
  c3_cache_correctness_amended (fun _ => .ok "X") [] ".a" "X" (by decide)
    rfl rfl

/-- C6: when the external compiler throws, `compileSass` catches the
exception and returns the original source text prefixed with a comment
containing the error message, and the cache is unchanged (failures are
never cached). -/
theorem c6_failsafe_compile (compiler : String → Except String String)
    (cache : List (String × String)) (s msg : String)
    (hb : isBlank s = false) (hm : mapGet s cache = none)
    (hc : compiler s = .error msg) :
    (compileSass true compiler cache s).output =
      "/* Sass compilation error: " ++ msg ++ " */\n" ++ s ∧
    (compileSass true compiler cache s).cache = cache := by
  unfold compileSass
  rw [if_neg (by simp [hb]), hm, hc]
  exact ⟨rfl, rfl⟩

/-- C6, witness: compiling the invalid source `.x { color: }` with a
throwing compiler yields the error-comment-plus-original fallback and
leaves the cache untouched. -/
theorem c6_failsafe_compile_witness :
    (compileSass true (fun _ => .error "expected expression") []
      ".x \x7b color: \x7d").output =
      "/* Sass compilation error: expected expression */\n" ++
        ".x \x7b color: \x7d" ∧
    (compileSass true (fun _ => .error "expected expression") []
      ".x \x7b color: \x7d").cache = [] :=
  c6_failsafe_compile (fun _ => .error "expected expression") []
    ".x \x7b color: \x7d" "expected expression" (by decide) rfl rfl

/-- C9: the adaptive debounce delay equals the configured base delay for
combined content up to 5000 characters, and `min (2 * base) 1000` above
that threshold. -/
theorem c9_adaptive_delay (d : Nat) (h c : String) :
    (h.length + c.length ≤ 5000 → adaptiveDelay d h c = d) ∧
    (h.length + c.length > 5000 →
      adaptiveDelay d h c = min (2 * d) 1000) := by
  constructor
  · intro hle
    rw [adaptiveDelay, if_neg (by omega)]
  · intro hgt
    rw [adaptiveDelay, if_pos hgt, Nat.mul_comm]

/-- C9, witness: the small-content case at 100 ms base delay, and the
large-content case for a 5001-character markup. -/
theorem c9_adaptive_delay_witness :
    adaptiveDelay 100 "ab" "c" = 100 ∧
    adaptiveDelay 100 (String.mk (List.replicate 5001 'a')) "" =
      min (2 * 100) 1000 :=
  ⟨(c9_adaptive_delay 100 "ab" "c").1 (by decide),
   (c9_adaptive_delay 100 (String.mk (List.replicate 5001 'a')) "").2
     (by
       have h1 : (String.mk (List.replicate 5001 'a')).length = 5001 := by
         show (List.replicate 5001 'a').length = 5001
         rw [List.length_replicate]
       have h2 : ("" : String).length = 0 := rfl
       omega)⟩

/-!
The debounce invariant: the host timer queue never holds more than one
pending preview job, and any pending job is the one whose id the view
holds in `updateTimeout`.
-/

/-- At most one pending job, and every pending job is the one tracked by
`updateTimeout`. -/
def schedInv (st : SchedState) : Prop :=
  st.jobs.length ≤ 1 ∧ ∀ j ∈ st.jobs, st.updateTimeout = some j.id

/-- `clearUpdateTimeout` does not touch the fresh-id counter. -/
theorem clearUpdateTimeout_nextId (st : SchedState) :
    (clearUpdateTimeout st).nextId = st.nextId := by
  unfold clearUpdateTimeout
  split <;> rfl

/-- `clearUpdateTimeout` does not touch the clock. -/
theorem clearUpdateTimeout_now (st : SchedState) :
    (clearUpdateTimeout st).now = st.now := by
  unfold clearUpdateTimeout
  split <;> rfl

/-- Under the invariant, cancelling the tracked job empties the queue. -/
theorem clearUpdateTimeout_jobs (st : SchedState) (h : schedInv st) :
    (clearUpdateTimeout st).jobs = [] := by
  obtain ⟨hl, hall⟩ := h
  unfold clearUpdateTimeout
  cases hupd : st.updateTimeout with
  | none =>
    rw [List.eq_nil_iff_forall_not_mem]
    intro j hj
    have := hall j hj
    rw [hupd] at this
    exact Option.noConfusion this
  | some tid =>
    simp only
    rw [List.filter_eq_nil_iff]
    intro j hj
    have := hall j hj
    rw [hupd] at this
    have : j.id = tid := (Option.some_inj.mp this).symm
    simp [this]

/-- `onContentChange` preserves the debounce invariant: it cancels any
pending job before scheduling the new one. -/
theorem onContentChange_inv (settings : Settings) (h c : String)
    (st : SchedState) (hinv : schedInv st) :
    schedInv (onContentChange settings h c st) := by
  unfold onContentChange
  have hinv1 : schedInv { st with htmlContent := h, cssContent := c } :=
    hinv
  split
  · dsimp only
    have hjobs := clearUpdateTimeout_jobs _ hinv1
    rw [hjobs]
    constructor
    · simp
    · intro j hj
      simp only [List.nil_append, List.mem_singleton] at hj
      subst hj
      rfl
  · exact hinv1

/-- Firing a job only shrinks the queue. -/
theorem fireJob_inv (st : SchedState) (j : Job) (hinv : schedInv st) :
    schedInv (fireJob st j) := by
  obtain ⟨hl, hall⟩ := hinv
  constructor
  · exact le_trans (List.length_filter_le _ _) hl
  · intro j2 hj2
    exact hall j2 (List.mem_of_mem_filter hj2)

/-- Folding `fireJob` over any due list preserves the invariant. -/
theorem foldl_fireJob_inv (due : List Job) (st : SchedState)
    (hinv : schedInv st) : schedInv (due.foldl fireJob st) := by
  induction due generalizing st with
  | nil => exact hinv
  | cons j rest ih => exact ih _ (fireJob_inv st j hinv)

/-- `advanceTo` preserves the invariant. -/
theorem advanceTo_inv (t : Nat) (st : SchedState) (hinv : schedInv st) :
    schedInv (advanceTo t st) := by
  unfold advanceTo
  exact foldl_fireJob_inv _ _ hinv

/-- Every scheduler event preserves the invariant. -/
theorem schedStep_inv (settings : Settings) (st : SchedState)
    (op : SchedOp) (hinv : schedInv st) :
    schedInv (schedStep settings st op) := by
  cases op with
  | change h c => exact onContentChange_inv settings h c st hinv
  | advance t => exact advanceTo_inv t st hinv

/-- The invariant holds after any event sequence from the initial
state. -/
theorem runSched_inv (settings : Settings) (ops : List SchedOp) :
    schedInv (runSched settings schedInit ops) := by
  have h0 : schedInv schedInit := by
    constructor
    · simp [schedInit]
    · intro j hj
      simp [schedInit] at hj
  rw [runSched]
  generalize schedInit = st at h0 ⊢
  induction ops generalizing st with
  | nil => exact h0
  | cons op rest ih => exact ih _ (schedStep_inv settings st op h0)

/-- The burst scenario of the claim: content changes at t = 0, 10 and
20 ms with a 100 ms base delay, then the clock runs on. -/
def burstOps : List SchedOp :=
  [.change "h0" "c0", .advance 10, .change "h1" "c1", .advance 20,
   .change "h2" "c2", .advance 1000]

/-- C4: at every point at most one debounce job is pending — every event
sequence keeps the timer queue at one tracked job at most — and the
t = 0/10/20 ms burst with a 100 ms delay produces exactly one render,
which renders the content of the most recent change. -/
theorem c4_debounce_coalescing (settings : Settings) (ops : List SchedOp) :
    schedInv (runSched settings schedInit ops) ∧
    (runSched ⟨true, 100⟩ schedInit burstOps).renders = [("h2", "c2")] :=
  ⟨runSched_inv settings ops, rfl⟩

/-!
Theorems about the animation performance sampler (C5) and the multi-sink
fan-out (C8).
-/

/-- A throw aborts the element loop: the elements before the throw keep
their recorded samples and the loop reports failure. -/
theorem processAnimated_error (now : Nat)
    (pre post : List (Except Unit (Option String)))
    (anims : List AnimEntry) (hok : ∀ e ∈ pre, ∃ v, e = .ok v) :
    processAnimated now (pre ++ .error () :: post) anims =
      ((processAnimated now pre anims).1, false) := by
  induction pre generalizing anims with
  | nil => rfl
  | cons e es ih =>
    have hok2 : ∀ e2 ∈ es, ∃ v2, e2 = .ok v2 := fun e2 he2 =>
      hok e2 (List.mem_cons_of_mem e he2)
    obtain ⟨v, hv⟩ := hok e (List.mem_cons_self e es)
    subst hv
    cases v with
    | none => exact ih anims hok2
    | some n => exact ih (recordAnim now anims n) hok2

/-- C5, counterexample: when introspecting the second animated element
throws during a frame, the frame has already contributed a sample for
the first element, and no further animation frame is scheduled — the
polling loop stops rather than continuing. -/
theorem c5_sampler_error_counterexample :
    (monitorFrame 0 true [.ok (some "spin"), .error ()]
      ⟨[], true⟩).rafPending = false ∧
    (monitorFrame 0 true [.ok (some "spin"), .error ()]
      ⟨[], true⟩).animations = [⟨"spin", 0, 1⟩] :=
  ⟨rfl, rfl⟩

/-- C5, amended: an introspection error during an animation-frame poll
is swallowed (the callback returns normally), but the elements processed
before the failing one keep the samples they contributed in that frame,
and — because the re-arming `requestAnimationFrame` call sits inside the
`try` block after the loop — no further frame is scheduled: monitoring
stops until `startMonitoring` is invoked again. -/
theorem c5_sampler_error_amended (now : Nat)
    (pre post : List (Except Unit (Option String))) (st : MonitorState)
    (hok : ∀ e ∈ pre, ∃ v, e = .ok v) :
    (monitorFrame now true (pre ++ .error () :: post) st).rafPending =
      false ∧
    (monitorFrame now true (pre ++ .error () :: post) st).animations =
      (processAnimated now pre st.animations).1 := by
  unfold monitorFrame
  rw [if_pos rfl, processAnimated_error now pre post st.animations hok]
  exact ⟨rfl, rfl⟩

/-- C5, witness for the amended theorem at a concrete frame. -/
theorem c5_sampler_error_witness :
    (monitorFrame 3 true ([.ok (some "a")] ++ .error () :: [])
      ⟨[], true⟩).rafPending = false ∧
    (monitorFrame 3 true ([.ok (some "a")] ++ .error () :: [])
      ⟨[], true⟩).animations =
      (processAnimated 3 [.ok (some "a")]
        (MonitorState.mk [] true).animations).1 :=
  c5_sampler_error_amended 3 [.ok (some "a")] [] ⟨[], true⟩
    (by
      intro e he
      rw [List.mem_singleton] at he
      exact ⟨some "a", he⟩)

/-- C8: the fan-out of one render.  The attempted sinks are exactly the
live ones — primary always, floating iff the PiP frame exists,
fullscreen iff the overlay exists and its frame is found — and each
sink's outcome is a function of that sink alone, so a caught-and-logged
failure on one sink never changes what is written to the others. -/
theorem c8_fanout_independence (st : PreviewSinks) :
    (updatePreview st).map Prod.fst =
      [SinkKind.primary] ++
      (if st.pipFrame.isSome then [SinkKind.floating] else []) ++
      (match st.fullscreenOverlay with
       | some (some _) => [SinkKind.fullscreen]
       | _ => []) ∧
    List.lookup SinkKind.primary (updatePreview st) =
      some (renderPreviewContent st.previewFrame) ∧
    List.lookup SinkKind.floating (updatePreview st) =
      st.pipFrame.map renderPreviewContentToFrame ∧
    List.lookup SinkKind.fullscreen (updatePreview st) =
      (match st.fullscreenOverlay with
       | some (some f) => some (renderPreviewContentToFrame f)
       | _ => none) := by
  obtain ⟨pf, pip, fo⟩ := st
  cases pip <;> rcases fo with _ | (_ | f) <;>
    simp only [updatePreview, List.lookup, List.map, List.cons_append,
      List.nil_append, Option.isSome, Option.map] <;>
    exact ⟨rfl, rfl, rfl, rfl⟩

/-!
Theorems about the sanitizer on the claim scenarios (C2, C10).
-/

/-- The assembled document of the C2 scenario: markup
`<script>alert(1)</script><p>ok</p>`, empty style, preprocessor
disabled. -/
def c2doc : String :=
  generatePreviewContent false (fun s => .ok s) [] "#ffffff"
    "<script>alert(1)</script><p>ok</p>" ""

set_option maxRecDepth 10000 in
/-- C2, counterexample: for the claim scenario the assembled document
contains no comment retaining `alert(1)` — the text `alert(1)` does not
occur in it at all, because the sanitizer replaces the script block with
a fixed comment — and the document does contain a literal `<script>`
tag (the fixed anti-navigation guard script of the shell). -/
theorem c2_sanitize_script_counterexample :
    containsStr c2doc "alert(1)" = false ∧
    containsStr c2doc "<script>" = true := by
  decide

set_option maxRecDepth 10000 in
/-- C2, amended: the sanitizer removes the script element but replaces
it with the fixed comment `<!-- Unsafe element removed for security -->`
which does not retain the inner text.  For the scenario markup the
sanitized markup is exactly that comment followed by `<p>ok</p>`; the
assembled document contains `<p>ok</p>` and the fixed comment but not
the text `alert(1)`, and its only `<script>` is the fixed guard script
of the shell. -/
theorem c2_sanitize_script_amended :
    validateAndSanitizeHTML "<script>alert(1)</script><p>ok</p>" =
      "<!-- Unsafe element removed for security --><p>ok</p>" ∧
    containsStr c2doc "<p>ok</p>" = true ∧
    containsStr c2doc "<!-- Unsafe element removed for security -->" =
      true ∧
    containsStr c2doc "alert(1)" = false := by
  decide

/-- C10, counterexample: a lone `<form>` opener with no matching
`</form>` closer survives sanitization unchanged — the form pattern
requires the closer — so a `<form>` tag can survive. -/
theorem c10_form_removal_counterexample :
    validateAndSanitizeHTML "<form>" = "<form>" ∧
    containsStr (validateAndSanitizeHTML "<form>") "<form>" = true := by
  exact ⟨rfl, rfl⟩

/-!
Idempotence of the sanitizers.  The development shows that the output of
`validateAndSanitizeHTML` contains no match of any dangerous pattern
(and similarly for the CSS sanitizer), from which running the sanitizer
a second time is the identity.  Everything character-specific about the
concrete patterns and replacement comments is isolated into decidable
side conditions.
-/

/-- `ciEq` is reflexive. -/
theorem ciEq_refl (a : Char) : ciEq a a = true := by
  simp [ciEq]

/-- `ciEq` is symmetric. -/
theorem ciEq_symm {a b : Char} (h : ciEq a b = true) : ciEq b a = true := by
  simp [ciEq] at h ⊢
  exact h.symm

/-- `ciEq` is transitive. -/
theorem ciEq_trans {a b c : Char} (h1 : ciEq a b = true)
    (h2 : ciEq b c = true) : ciEq a c = true := by
  simp [ciEq] at h1 h2 ⊢
  exact h1.trans h2

/-- Unfold a `ciPre` on a cons. -/
theorem ciPre_cons {a : Char} {as b : List Char} {c : Char} :
    ciPre (a :: as) (c :: b) = (ciEq a c && ciPre as b) := rfl

/-- A `ciPre` match on an append either lies within the first part or
agrees with all of it and continues into the second. -/
theorem ciPre_append_strong {w r t : List Char}
    (h : ciPre w (r ++ t) = true) :
    ciPre w r = true ∨
      (ciPre r w = true ∧ ciPre (w.drop r.length) t = true) := by
  induction r generalizing w with
  | nil =>
    right
    exact ⟨rfl, h⟩
  | cons a r' ih =>
    cases w with
    | nil => left; rfl
    | cons b w' =>
      rw [List.cons_append, ciPre_cons, Bool.and_eq_true] at h
      obtain ⟨hab, h'⟩ := h
      rcases ih h' with h1 | ⟨h2, h3⟩
      · left
        rw [ciPre_cons, Bool.and_eq_true]
        exact ⟨hab, h1⟩
      · right
        refine ⟨?_, h3⟩
        rw [ciPre_cons, Bool.and_eq_true]
        exact ⟨ciEq_symm hab, h2⟩

/-- A `ciPre` match on an append whose first part is at least as long as
the pattern lies within the first part. -/
theorem ciPre_append_of_le {w r t : List Char} (hle : w.length ≤ r.length)
    (h : ciPre w (r ++ t) = true) : ciPre w r = true := by
  induction r generalizing w with
  | nil =>
    cases w with
    | nil => rfl
    | cons b w' => simp at hle
  | cons a r' ih =>
    cases w with
    | nil => rfl
    | cons b w' =>
      rw [List.cons_append, ciPre_cons, Bool.and_eq_true] at h
      rw [ciPre_cons, Bool.and_eq_true]
      simp only [List.length_cons, Nat.add_le_add_iff_right] at hle
      exact ⟨h.1, ih hle h.2⟩

/-- Extending the scanned list preserves a `ciPre` match. -/
theorem ciPre_append_right {w r : List Char} (t : List Char)
    (h : ciPre w r = true) : ciPre w (r ++ t) = true := by
  induction r generalizing w with
  | nil =>
    cases w with
    | nil => rfl
    | cons b w' => exact absurd h (by simp [ciPre])
  | cons a r' ih =>
    cases w with
    | nil => rfl
    | cons b w' =>
      rw [ciPre_cons, Bool.and_eq_true] at h
      rw [List.cons_append, ciPre_cons, Bool.and_eq_true]
      exact ⟨h.1, ih h.2⟩

/-- A `ciPre` match splits the scanned list into a case-insensitive
image of the pattern and a remainder. -/
theorem ciPre_split {w s : List Char} (h : ciPre w s = true) :
    ∃ x y, s = x ++ y ∧ ciFull w x = true ∧ x.length = w.length := by
  induction w generalizing s with
  | nil => exact ⟨[], s, rfl, rfl, rfl⟩
  | cons a w' ih =>
    cases s with
    | nil => exact absurd h (by simp [ciPre])
    | cons c s' =>
      rw [ciPre_cons, Bool.and_eq_true] at h
      obtain ⟨x, y, hxy, hfull, hlen⟩ := ih h.2
      refine ⟨c :: x, y, by rw [hxy, List.cons_append], ?_, by simp [hlen]⟩
      show (ciEq a c && ciFull w' x) = true
      rw [Bool.and_eq_true]
      exact ⟨h.1, hfull⟩

/-- `ciFull` gives equal lengths. -/
theorem ciFull_length {a b : List Char} (h : ciFull a b = true) :
    a.length = b.length := by
  induction a generalizing b with
  | nil => cases b with
    | nil => rfl
    | cons c b' => exact absurd h (by simp [ciFull])
  | cons x a' ih =>
    cases b with
    | nil => exact absurd h (by simp [ciFull])
    | cons c b' =>
      have h' : (ciEq x c && ciFull a' b') = true := h
      rw [Bool.and_eq_true] at h'
      simp [ih h'.2]

/-- `ciFull` restricts to drops. -/
theorem ciFull_drop {a b : List Char} (j : Nat) (h : ciFull a b = true) :
    ciFull (a.drop j) (b.drop j) = true := by
  induction j generalizing a b with
  | zero => exact h
  | succ j ih =>
    cases a with
    | nil => cases b with
      | nil => rfl
      | cons c b' => exact absurd h (by simp [ciFull])
    | cons x a' =>
      cases b with
      | nil => exact absurd h (by simp [ciFull])
      | cons c b' =>
        have h' : (ciEq x c && ciFull a' b') = true := h
        rw [Bool.and_eq_true] at h'
        exact ih h'.2

/-- Every character of a `ciFull` image is `ciEq` to the corresponding
pattern character; in particular it is `ciEq` to some pattern
character. -/
theorem ciFull_mem {a b : List Char} (h : ciFull a b = true) :
    ∀ c ∈ b, ∃ d ∈ a, ciEq d c = true := by
  induction a generalizing b with
  | nil => cases b with
    | nil => intro c hc; exact absurd hc (by simp)
    | cons c b' => exact absurd h (by simp [ciFull])
  | cons x a' ih =>
    cases b with
    | nil => intro c hc; exact absurd hc (by simp)
    | cons c b' =>
      have h' : (ciEq x c && ciFull a' b') = true := h
      rw [Bool.and_eq_true] at h'
      intro e he
      rcases List.mem_cons.mp he with he | he
      · exact ⟨x, List.mem_cons_self x a', he ▸ h'.1⟩
      · obtain ⟨d, hd, hci⟩ := ih h'.2 e he
        exact ⟨d, List.mem_cons_of_mem x hd, hci⟩

/-- Transport a `ciPre` along a `ciFull` image (image on the right). -/
theorem ciPre_congr_right {w a b : List Char} (hf : ciFull a b = true)
    (h : ciPre w b = true) : ciPre w a = true := by
  induction w generalizing a b with
  | nil => rfl
  | cons x w' ih =>
    cases b with
    | nil => exact absurd h (by simp [ciPre])
    | cons c b' =>
      cases a with
      | nil => exact absurd hf (by simp [ciFull])
      | cons d a' =>
        have hf' : (ciEq d c && ciFull a' b') = true := hf
        rw [Bool.and_eq_true] at hf'
        rw [ciPre_cons, Bool.and_eq_true] at h
        rw [ciPre_cons, Bool.and_eq_true]
        exact ⟨ciEq_trans h.1 (ciEq_symm hf'.1), ih hf'.2 h.2⟩

/-- Transport a `ciPre` along a `ciFull` image (image as the pattern). -/
theorem ciPre_congr_left {w a b : List Char} (hf : ciFull a b = true)
    (h : ciPre b w = true) : ciPre a w = true := by
  induction w generalizing a b with
  | nil =>
    cases b with
    | nil =>
      cases a with
      | nil => rfl
      | cons d a' => exact absurd hf (by simp [ciFull])
    | cons c b' => exact absurd h (by simp [ciPre])
  | cons x w' ih =>
    cases b with
    | nil =>
      cases a with
      | nil => rfl
      | cons d a' => exact absurd hf (by simp [ciFull])
    | cons c b' =>
      cases a with
      | nil => rfl
      | cons d a' =>
        have hf' : (ciEq d c && ciFull a' b') = true := hf
        rw [Bool.and_eq_true] at hf'
        rw [ciPre_cons, Bool.and_eq_true] at h
        rw [ciPre_cons, Bool.and_eq_true]
        exact ⟨ciEq_trans hf'.1 h.1, ih hf'.2 h.2⟩

/-- A successful `gtScan` consumes at least one character. -/
theorem gtScan_pos {t : List Char} {g : Nat} (h : gtScan t = some g) :
    1 ≤ g := by
  induction t generalizing g with
  | nil => exact absurd h (by simp [gtScan])
  | cons c cs ih =>
    rw [gtScan] at h
    split at h
    · cases h; omega
    · rw [Option.map_eq_some'] at h
      obtain ⟨g', _, hg⟩ := h
      omega

/-- A successful match consumes at least one character. -/
theorem matchLen_pos {p : TagPat} {s : List Char} {n : Nat}
    (h : matchLen p s = some n) : 1 ≤ n := by
  unfold matchLen at h
  split at h
  · split at h
    · exact absurd h (by simp)
    · rename_i g hg
      have hg1 := gtScan_pos hg
      split at h
      · cases h; omega
      · split at h
        · exact absurd h (by simp)
        · cases h; omega
  · exact absurd h (by simp)

/-- A `Bool`-level `isSome = false` gives `= none`. -/
theorem option_eq_none_of_isSome_false {α : Type} {o : Option α}
    (h : o.isSome = false) : o = none := by
  cases o with
  | none => rfl
  | some v => simp [Option.isSome] at h

/-- The fuel supplied to `scanRepF` is irrelevant once it covers the
list length. -/
theorem scanRepF_congr (p : TagPat) (rep : List Char) (f1 f2 : Nat)
    (s : List Char) (h1 : s.length ≤ f1) (h2 : s.length ≤ f2) :
    scanRepF p rep f1 s = scanRepF p rep f2 s := by
  induction f1 generalizing f2 s with
  | zero =>
    cases s with
    | nil => cases f2 <;> rfl
    | cons c cs => simp at h1
  | succ f1 ih =>
    cases s with
    | nil => cases f2 <;> rfl
    | cons c cs =>
      cases f2 with
      | zero => simp at h2
      | succ f2 =>
        simp only [List.length_cons] at h1 h2
        cases hm : matchLen p (c :: cs) with
        | none =>
          simp only [scanRepF, hm]
          rw [ih f2 cs (by omega) (by omega)]
        | some n =>
          simp only [scanRepF, hm]
          have hd : (cs.drop (n - 1)).length ≤ cs.length := by
            rw [List.length_drop]; omega
          rw [ih f2 (cs.drop (n - 1)) (by omega) (by omega)]

/-- `scanRep` on the empty list. -/
theorem scanRep_nil (p : TagPat) (rep : List Char) :
    scanRep p rep [] = [] := rfl

/-- `scanRep` at a matching position. -/
theorem scanRep_cons_match {p : TagPat} {rep : List Char} {c : Char}
    {cs : List Char} {n : Nat} (h : matchLen p (c :: cs) = some n) :
    scanRep p rep (c :: cs) = rep ++ scanRep p rep (cs.drop (n - 1)) := by
  rw [scanRep, scanRep, List.length_cons]
  simp only [scanRepF, h]
  congr 1
  exact scanRepF_congr p rep cs.length (cs.drop (n - 1)).length
    (cs.drop (n - 1)) (by rw [List.length_drop]; omega) le_rfl

/-- `scanRep` at a non-matching position. -/
theorem scanRep_cons_none {p : TagPat} {rep : List Char} {c : Char}
    {cs : List Char} (h : matchLen p (c :: cs) = none) :
    scanRep p rep (c :: cs) = c :: scanRep p rep cs := by
  rw [scanRep, scanRep, List.length_cons]
  simp only [scanRepF, h]

/-- A list without matches is left unchanged by the global replace. -/
theorem scanRep_id_of_no_match {p : TagPat} {rep : List Char}
    {s : List Char} (h : hasMatch p s = false) : scanRep p rep s = s := by
  induction s with
  | nil => rfl
  | cons c cs ih =>
    rw [hasMatch, Bool.or_eq_false_iff] at h
    obtain ⟨h1, h2⟩ := h
    rw [scanRep_cons_none (option_eq_none_of_isSome_false h1), ih h2]

/-- Unfolding `hasMatch` to `false` on a cons. -/
theorem hasMatch_cons_false {p : TagPat} {c : Char} {cs : List Char} :
    hasMatch p (c :: cs) = false ↔
      matchLen p (c :: cs) = none ∧ hasMatch p cs = false := by
  rw [hasMatch, Bool.or_eq_false_iff]
  constructor
  · rintro ⟨h1, h2⟩
    exact ⟨option_eq_none_of_isSome_false h1, h2⟩
  · rintro ⟨h1, h2⟩
    exact ⟨by rw [h1]; rfl, h2⟩

/-- No match in a list means no match in any of its tail parts. -/
theorem hasMatch_drop {p : TagPat} {s : List Char} (k : Nat)
    (h : hasMatch p s = false) : hasMatch p (s.drop k) = false := by
  induction k generalizing s with
  | zero => exact h
  | succ k ih =>
    cases s with
    | nil => exact h
    | cons c cs =>
      rw [hasMatch_cons_false] at h
      exact ih h.2

/-- Assemble no-match on an append from no-match at every boundary
suffix and no-match in the second part. -/
theorem hasMatch_append_false {p : TagPat} {x y : List Char}
    (hx : ∀ r, r <:+ x → r ≠ [] → matchLen p (r ++ y) = none)
    (hy : hasMatch p y = false) : hasMatch p (x ++ y) = false := by
  induction x with
  | nil => exact hy
  | cons c cs ih =>
    rw [List.cons_append, hasMatch_cons_false]
    constructor
    · exact hx (c :: cs) (List.suffix_refl _) (by simp)
    · exact ih fun r hr hne =>
        hx r (hr.trans (List.suffix_cons c cs)) hne

/-- First-match decomposition: when a list has a match, the global
replace keeps a match-free prefix, emits the replacement for the first
match, and recurses after it. -/
theorem firstMatch (p : TagPat) (rep : List Char) {t : List Char}
    (h : hasMatch p t = true) :
    ∃ a u n, t = a ++ u ∧ matchLen p u = some n ∧
      (∀ r, r <:+ a → r ≠ [] → matchLen p (r ++ u) = none) ∧
      scanRep p rep t = a ++ rep ++ scanRep p rep (u.drop n) := by
  induction t with
  | nil => simp [hasMatch] at h
  | cons c cs ih =>
    cases hm : matchLen p (c :: cs) with
    | some n =>
      refine ⟨[], c :: cs, n, rfl, hm, ?_, ?_⟩
      · intro r hr hne
        exact absurd (List.suffix_nil.mp hr) hne
      · rw [scanRep_cons_match hm]
        cases n with
        | zero => exact absurd (matchLen_pos hm) (by omega)
        | succ m => rfl
    | none =>
      rw [hasMatch, hm] at h
      simp only [Option.isSome_none, Bool.false_or] at h
      obtain ⟨a, u, n, hau, hu, hfree, hscan⟩ := ih h
      refine ⟨c :: a, u, n, by rw [hau, List.cons_append], hu, ?_, ?_⟩
      · intro r hr hne
        rcases List.suffix_cons_iff.mp hr with hr | hr
        · rw [hr, List.cons_append, ← hau]
          exact hm
        · exact hfree r hr hne
      · rw [scanRep_cons_none hm, hscan, List.cons_append,
          List.cons_append]

/-- `gtScan` fails exactly on `>`-free lists. -/
theorem gtScan_none_iff {t : List Char} :
    gtScan t = none ↔ t.all (fun c => c ≠ '>') = true := by
  induction t with
  | nil => simp [gtScan]
  | cons c cs ih =>
    by_cases hc : c = '>'
    · simp [gtScan, hc]
    · simp [gtScan, hc, ih, Option.map_eq_none']

/-- A successful `gtScan` splits the list at the first `>`. -/
theorem gtScan_split {t : List Char} {g : Nat} (h : gtScan t = some g) :
    ∃ a z, t = a ++ '>' :: z ∧ a.all (fun c => c ≠ '>') = true ∧
      g = a.length + 1 := by
  induction t generalizing g with
  | nil => exact absurd h (by simp [gtScan])
  | cons c cs ih =>
    rw [gtScan] at h
    split at h
    · rename_i hc
      cases h
      exact ⟨[], cs, by rw [hc]; rfl, rfl, rfl⟩
    · rename_i hc
      rw [Option.map_eq_some'] at h
      obtain ⟨g', hg', hg⟩ := h
      obtain ⟨a, z, hsplit, hall, hlen⟩ := ih hg'
      refine ⟨c :: a, z, by rw [hsplit]; rfl, ?_, by simp [hlen, ← hg]⟩
      rw [List.all_cons, hall]
      simp [hc]

/-- `gtScan` on a `>`-free part followed by a `>`. -/
theorem gtScan_all_then_gt {a : List Char}
    (ha : a.all (fun c => c ≠ '>') = true) (z : List Char) :
    gtScan (a ++ '>' :: z) = some (a.length + 1) := by
  induction a with
  | nil => simp [gtScan]
  | cons c cs ih =>
    rw [List.all_cons, Bool.and_eq_true] at ha
    rw [List.cons_append, gtScan, if_neg (by simpa using ha.1),
      ih ha.2]
    simp

/-- `occScan` fails exactly when the pattern does not occur. -/
theorem occScan_none_iff {pat t : List Char} :
    occScan pat t = none ↔ occursCI pat t = false := by
  induction t with
  | nil => simp [occScan, occursCI]
  | cons c cs ih =>
    by_cases hc : ciPre pat (c :: cs) = true
    · simp [occScan, occursCI, hc]
    · rw [Bool.not_eq_true] at hc
      simp [occScan, occursCI, hc, ih, Option.map_eq_none']

/-- Prepending cannot remove an occurrence. -/
theorem occursCI_cons_of {pat : List Char} {c : Char} {cs : List Char}
    (h : occursCI pat cs = true) : occursCI pat (c :: cs) = true := by
  rw [occursCI, h, Bool.or_true]

/-- Unfold non-occurrence on a cons. -/
theorem occursCI_cons_false {pat : List Char} {c : Char}
    {cs : List Char} :
    occursCI pat (c :: cs) = false ↔
      ciPre pat (c :: cs) = false ∧ occursCI pat cs = false := by
  rw [occursCI, Bool.or_eq_false_iff]

/-- Non-occurrence passes to tail parts. -/
theorem occursCI_drop {pat t : List Char} (k : Nat)
    (h : occursCI pat t = false) : occursCI pat (t.drop k) = false := by
  induction k generalizing t with
  | zero => exact h
  | succ k ih =>
    cases t with
    | nil => exact h
    | cons c cs =>
      rw [occursCI_cons_false] at h
      exact ih h.2

/-- An occurrence in the first part is an occurrence in the append. -/
theorem occursCI_append_left {pat x : List Char} (y : List Char)
    (h : occursCI pat x = true) : occursCI pat (x ++ y) = true := by
  induction x with
  | nil => simp [occursCI] at h
  | cons c cs ih =>
    rw [occursCI, Bool.or_eq_true] at h
    rw [List.cons_append, occursCI, Bool.or_eq_true]
    rcases h with h | h
    · exact Or.inl (ciPre_append_right y h)
    · exact Or.inr (ih h)

/-- An occurrence in the second part is an occurrence in the append. -/
theorem occursCI_append_right {pat y : List Char} (x : List Char)
    (h : occursCI pat y = true) : occursCI pat (x ++ y) = true := by
  induction x with
  | nil => exact h
  | cons c cs ih => exact occursCI_cons_of ih

/-- An occurrence in an append lies in the first part, in the second
part, or spans the boundary: a nonempty proper fragment of the pattern
ends the first part and the rest of the pattern starts the second. -/
theorem occursCI_append_split {pat x y : List Char}
    (h : occursCI pat (x ++ y) = true) :
    occursCI pat x = true ∨ occursCI pat y = true ∨
      ∃ r, r <:+ x ∧ r ≠ [] ∧ r.length < pat.length ∧
        ciPre r pat = true ∧ ciPre (pat.drop r.length) y = true := by
  induction x with
  | nil => exact Or.inr (Or.inl h)
  | cons c cs ih =>
    rw [List.cons_append, occursCI, Bool.or_eq_true] at h
    rcases h with h | h
    · rw [← List.cons_append] at h
      by_cases hin : ciPre pat (c :: cs) = true
      · exact Or.inl (by rw [occursCI, hin, Bool.true_or])
      · by_cases hlen : pat.length ≤ (c :: cs).length
        · exact absurd (ciPre_append_of_le hlen h) hin
        · rcases ciPre_append_strong h with h1 | ⟨h2, h3⟩
          · exact absurd h1 hin
          · refine Or.inr (Or.inr ⟨c :: cs, List.suffix_refl _, by simp,
              by omega, h2, h3⟩)
    · rcases ih h with h1 | h1 | ⟨r, hr, hne, hlt, hpre, hcont⟩
      · exact Or.inl (occursCI_cons_of h1)
      · exact Or.inr (Or.inl h1)
      · exact Or.inr (Or.inr ⟨r, hr.trans (List.suffix_cons c cs), hne,
          hlt, hpre, hcont⟩)

/-- A character-literal never occurs after scanning when it occurs
neither in the original nor in the replacement. -/
theorem all_ne_scanRep {p : TagPat} {rep : List Char} {x : Char}
    {t : List Char} (hrep : rep.all (fun c => c ≠ x) = true)
    (h : t.all (fun c => c ≠ x) = true) :
    (scanRep p rep t).all (fun c => c ≠ x) = true := by
  generalize hlen : t.length = L
  induction L using Nat.strong_induction_on generalizing t with
  | _ L ih =>
    cases t with
    | nil => exact h
    | cons c cs =>
      rw [List.length_cons] at hlen
      rw [List.all_cons, Bool.and_eq_true] at h
      cases hm : matchLen p (c :: cs) with
      | none =>
        rw [scanRep_cons_none hm, List.all_cons, Bool.and_eq_true]
        exact ⟨h.1, ih cs.length (by omega) h.2 rfl⟩
      | some n =>
        rw [scanRep_cons_match hm, List.all_append, Bool.and_eq_true]
        refine ⟨hrep, ?_⟩
        have hd : (cs.drop (n - 1)).length < L := by
          rw [List.length_drop]
          omega
        refine ih (cs.drop (n - 1)).length hd ?_ rfl
        rw [← List.take_append_drop (n - 1) cs, List.all_append,
          Bool.and_eq_true] at h
        exact h.2.2

/-- A failed opener means no match. -/
theorem matchLen_none_of_not_pre {p : TagPat} {s : List Char}
    (h : ciPre p.opener s = false) : matchLen p s = none := by
  unfold matchLen
  rw [if_neg (by simp [h])]

/-- No `>` after the opener means no match. -/
theorem matchLen_none_of_no_gt {p : TagPat} {s : List Char}
    (h : gtScan (s.drop p.opener.length) = none) : matchLen p s = none := by
  unfold matchLen
  split
  · rw [h]
  · rfl

/-- For a block pattern, no closer occurrence after the first `>` means
no match. -/
theorem matchLen_none_of_no_closer {p : TagPat} {s cl : List Char}
    {g : Nat} (hcl : p.closer = some cl)
    (hg : gtScan (s.drop p.opener.length) = some g)
    (hocc : occursCI cl (s.drop (p.opener.length + g)) = false) :
    matchLen p s = none := by
  unfold matchLen
  split
  · simp only [hg, hcl, occScan_none_iff.mpr hocc]
  · rfl

/-- A match starts with the opener. -/
theorem matchLen_some_pre {p : TagPat} {s : List Char} {n : Nat}
    (h : matchLen p s = some n) : ciPre p.opener s = true := by
  by_cases hc : ciPre p.opener s = true
  · exact hc
  · rw [Bool.not_eq_true] at hc
    rw [matchLen_none_of_not_pre hc] at h
    exact absurd h (by simp)

/-- Full decomposition of a successful match. -/
theorem matchLen_some_elim {p : TagPat} {s : List Char} {n : Nat}
    (h : matchLen p s = some n) :
    ciPre p.opener s = true ∧
      ∃ g, gtScan (s.drop p.opener.length) = some g ∧
        ((p.closer = none ∧ n = p.opener.length + g) ∨
          ∃ cl j, p.closer = some cl ∧
            occScan cl (s.drop (p.opener.length + g)) = some j ∧
            n = p.opener.length + g + j) := by
  have hpre := matchLen_some_pre h
  refine ⟨hpre, ?_⟩
  unfold matchLen at h
  rw [if_pos hpre] at h
  cases hg : gtScan (s.drop p.opener.length) with
  | none => rw [hg] at h; exact absurd h (by simp)
  | some g =>
    rw [hg] at h
    dsimp only at h
    refine ⟨g, rfl, ?_⟩
    cases hcl : p.closer with
    | none =>
      rw [hcl] at h
      dsimp only at h
      simp only [Option.some_inj] at h
      exact Or.inl ⟨rfl, h.symm⟩
    | some cl =>
      rw [hcl] at h
      dsimp only at h
      cases hocc : occScan cl (s.drop (p.opener.length + g)) with
      | none => rw [hocc] at h; exact absurd h (by simp)
      | some j =>
        rw [hocc] at h
        dsimp only at h
        simp only [Option.some_inj] at h
        exact Or.inr ⟨cl, j, rfl, hocc, h.symm⟩

/-- A case-insensitive prefix of scanned output whose characters all
clash with the replacement head is a prefix of the original. -/
theorem fragPres {q : TagPat} {rep : List Char} {r0 : Char}
    (hrep : rep.head? = some r0) {f t : List Char}
    (hf : ∀ d ∈ f, ciEq d r0 = false)
    (h : ciPre f (scanRep q rep t) = true) : ciPre f t = true := by
  generalize hlen : t.length = L
  induction L using Nat.strong_induction_on generalizing f t with
  | _ L ih =>
    cases t with
    | nil =>
      rw [scanRep_nil] at h
      cases f with
      | nil => rfl
      | cons d f' => exact absurd h (by simp [ciPre])
    | cons c cs =>
      rw [List.length_cons] at hlen
      cases f with
      | nil => rfl
      | cons d f' =>
        cases hm : matchLen q (c :: cs) with
        | some n =>
          rw [scanRep_cons_match hm] at h
          cases rep with
          | nil => exact absurd hrep (by simp)
          | cons r0' rrest =>
            have hr0 : r0' = r0 := by
              simpa using hrep
            rw [List.cons_append, ciPre_cons, Bool.and_eq_true] at h
            rw [hr0] at h
            exact absurd h.1
              (by rw [hf d (List.mem_cons_self d f')]; simp)
        | none =>
          rw [scanRep_cons_none hm, ciPre_cons, Bool.and_eq_true] at h
          rw [ciPre_cons, Bool.and_eq_true]
          refine ⟨h.1, ?_⟩
          exact ih cs.length (by omega)
            (fun e he => hf e (List.mem_cons_of_mem d he)) h.2 rfl

/-- Non-occurrence of a pattern is preserved by the global replace when
the pattern does not occur in the replacement, no nonempty suffix of the
replacement starts the pattern, and the pattern's tail characters all
clash with the replacement head. -/
theorem occursCI_scanRep {q : TagPat} {rep pat : List Char} {r0 : Char}
    (hrep : rep.head? = some r0)
    (hf3 : ∀ d ∈ pat.drop 1, ciEq d r0 = false)
    (hf1 : occursCI pat rep = false)
    (hf2 : ∀ r, r <:+ rep → r ≠ [] → ciPre r pat = false)
    {t : List Char} (h : occursCI pat t = false) :
    occursCI pat (scanRep q rep t) = false := by
  generalize hlen : t.length = L
  induction L using Nat.strong_induction_on generalizing t with
  | _ L ih =>
    cases t with
    | nil => exact h
    | cons c cs =>
      rw [List.length_cons] at hlen
      rw [occursCI_cons_false] at h
      cases hm : matchLen q (c :: cs) with
      | some n =>
        rw [scanRep_cons_match hm]
        by_contra hocc
        rw [Bool.not_eq_false] at hocc
        have hR : occursCI pat
            (scanRep q rep (cs.drop (n - 1))) = false := by
          refine ih (cs.drop (n - 1)).length ?_
            (occursCI_drop (n - 1) h.2) rfl
          rw [List.length_drop]
          have := matchLen_pos hm
          omega
        rcases occursCI_append_split hocc with h1 | h1 |
          ⟨r, hr, hne, hlt, hpre, hcont⟩
        · rw [hf1] at h1
          exact Bool.noConfusion h1
        · rw [hR] at h1
          exact Bool.noConfusion h1
        · rw [hf2 r hr hne] at hpre
          exact Bool.noConfusion hpre
      | none =>
        rw [scanRep_cons_none hm, occursCI_cons_false]
        constructor
        · by_contra hcr
          rw [Bool.not_eq_false] at hcr
          cases pat with
          | nil => exact absurd h.1 (by simp [ciPre])
          | cons d pat' =>
            rw [ciPre_cons, Bool.and_eq_true] at hcr
            have hp' : ciPre pat' cs = true :=
              fragPres hrep (fun e he => hf3 e (by simpa using he))
                hcr.2
            have : ciPre (d :: pat') (c :: cs) = true := by
              rw [ciPre_cons, Bool.and_eq_true]
              exact ⟨hcr.1, hp'⟩
            rw [h.1] at this
            exact Bool.noConfusion this
        · exact ih cs.length (by omega) h.2 rfl

/-- The list ends in `>` and contains no other `>`. -/
def gtOnlyLast : List Char → Bool
  | [] => false
  | [c] => c == '>'
  | c :: cs => decide (c ≠ '>') && gtOnlyLast cs

/-- Split off the final `>` of a `gtOnlyLast` list. -/
theorem gtOnlyLast_split {l : List Char} (h : gtOnlyLast l = true) :
    ∃ ri, l = ri ++ ['>'] ∧ ri.all (fun d => d ≠ '>') = true := by
  induction l with
  | nil => exact absurd h (by simp [gtOnlyLast])
  | cons c cs ih =>
    cases cs with
    | nil =>
      have hc : c = '>' := by simpa [gtOnlyLast] using h
      exact ⟨[], by rw [hc]; rfl, rfl⟩
    | cons c2 cs2 =>
      have h' : (decide (c ≠ '>') && gtOnlyLast (c2 :: cs2)) = true := h
      rw [Bool.and_eq_true] at h'
      obtain ⟨ri, hri, hall⟩ := ih h'.2
      refine ⟨c :: ri, by rw [hri]; rfl, ?_⟩
      rw [List.all_cons, hall]
      simpa using h'.1

/-- All character-level side conditions needed for the idempotence
argument, for a preserved pattern `p`, a scanned pattern `q` and a
replacement `rep`, bundled as one decidable check. -/
def tagSideFacts (p q : TagPat) (rep : List Char) : Bool :=
  (p.opener.head? == some '<') &&
  (q.opener.head? == some '<') &&
  ((p.opener.drop 1).all fun d => !ciEq d '<') &&
  (p.opener.all fun d => !ciEq d '>') &&
  (q.opener.all fun d => !ciEq d '>') &&
  (rep.head? == some '<') &&
  gtOnlyLast rep &&
  (rep.tails.all fun r =>
    r.isEmpty || (!ciPre p.opener r && !ciPre r p.opener)) &&
  ((List.range p.opener.length).all fun j =>
    decide (j = 0) || (!ciPre (p.opener.drop j) q.opener &&
               !ciPre q.opener (p.opener.drop j))) &&
  (match p.closer with
   | none => true
   | some cl =>
     (cl.head? == some '<') &&
     ((cl.drop 1).all fun d => !ciEq d '<') &&
     !occursCI cl rep &&
     (rep.tails.all fun r => r.isEmpty || !ciPre r cl))

/-- The side conditions as propositions. -/
structure TagFacts (p q : TagPat) (rep : List Char) : Prop where
  p_head : p.opener.head? = some '<'
  q_head : q.opener.head? = some '<'
  p_tail_lt : ∀ d ∈ p.opener.drop 1, ciEq d '<' = false
  p_no_gt : ∀ d ∈ p.opener, ciEq d '>' = false
  q_no_gt : ∀ d ∈ q.opener, ciEq d '>' = false
  rep_head : rep.head? = some '<'
  rep_gt_last : ∃ ri, rep = ri ++ ['>'] ∧ ri.all (fun d => d ≠ '>') = true
  rep_op_clash : ∀ r, r <:+ rep → r ≠ [] →
      ciPre p.opener r = false ∧ ciPre r p.opener = false
  inner_clash : ∀ j, 1 ≤ j → j < p.opener.length →
      ciPre (p.opener.drop j) q.opener = false ∧
      ciPre q.opener (p.opener.drop j) = false
  closer_facts : ∀ cl, p.closer = some cl →
      cl.head? = some '<' ∧
      (∀ d ∈ cl.drop 1, ciEq d '<' = false) ∧
      occursCI cl rep = false ∧
      (∀ r, r <:+ rep → r ≠ [] → ciPre r cl = false)

/-- Decode the decidable check into the proposition bundle. -/
theorem tagFacts_of_bool {p q : TagPat} {rep : List Char}
    (h : tagSideFacts p q rep = true) : TagFacts p q rep := by
  unfold tagSideFacts at h
  rw [Bool.and_eq_true, Bool.and_eq_true, Bool.and_eq_true,
    Bool.and_eq_true, Bool.and_eq_true, Bool.and_eq_true,
    Bool.and_eq_true, Bool.and_eq_true, Bool.and_eq_true] at h
  obtain ⟨⟨⟨⟨⟨⟨⟨⟨⟨h1, h2⟩, h3⟩, h4⟩, h5⟩, h6⟩, h7⟩, h8⟩, h9⟩, h10⟩ := h
  refine ⟨eq_of_beq h1, eq_of_beq h2, ?_, ?_, ?_, eq_of_beq h6,
    gtOnlyLast_split h7, ?_, ?_, ?_⟩
  · intro d hd
    have := List.all_eq_true.mp h3 d hd
    simpa using this
  · intro d hd
    have := List.all_eq_true.mp h4 d hd
    simpa using this
  · intro d hd
    have := List.all_eq_true.mp h5 d hd
    simpa using this
  · intro r hr hne
    have := List.all_eq_true.mp h8 r ((List.mem_tails r rep).mpr hr)
    rw [Bool.or_eq_true] at this
    rcases this with hthis | hthis
    · exact absurd (List.isEmpty_iff.mp hthis) hne
    · rw [Bool.and_eq_true] at hthis
      constructor
      · simpa using hthis.1
      · simpa using hthis.2
  · intro j hj1 hj2
    have := List.all_eq_true.mp h9 j (List.mem_range.mpr hj2)
    rw [Bool.or_eq_true] at this
    rcases this with hthis | hthis
    · exact absurd (of_decide_eq_true hthis) (by omega)
    · rw [Bool.and_eq_true] at hthis
      constructor
      · simpa using hthis.1
      · simpa using hthis.2
  · intro cl hcl
    rw [hcl] at h10
    rw [Bool.and_eq_true, Bool.and_eq_true, Bool.and_eq_true] at h10
    obtain ⟨⟨⟨g1, g2⟩, g3⟩, g4⟩ := h10
    refine ⟨eq_of_beq g1, ?_, by simpa using g3, ?_⟩
    · intro d hd
      have := List.all_eq_true.mp g2 d hd
      simpa using this
    · intro r hr hne
      have := List.all_eq_true.mp g4 r ((List.mem_tails r rep).mpr hr)
      rw [Bool.or_eq_true] at this
      rcases this with hthis | hthis
      · exact absurd (List.isEmpty_iff.mp hthis) hne
      · simpa using hthis

/-- The side conditions hold for every pair of dangerous markup patterns
with the fixed removal comment. -/
theorem html_side_facts :
    ∀ p ∈ dangerousPatterns, ∀ q ∈ dangerousPatterns,
      tagSideFacts p q unsafeComment = true := by
  decide

/-- A matched pattern is no longer than the scanned list. -/
theorem ciPre_length {w s : List Char} (h : ciPre w s = true) :
    w.length ≤ s.length := by
  induction w generalizing s with
  | nil => simp
  | cons a w' ih =>
    cases s with
    | nil => exact absurd h (by simp [ciPre])
    | cons c s' =>
      rw [ciPre_cons, Bool.and_eq_true] at h
      simpa using ih h.2

/-- `List.all` restricts to drops. -/
theorem all_drop {α : Type} {p : α → Bool} {l : List α} (k : Nat)
    (h : l.all p = true) : (l.drop k).all p = true := by
  rw [List.all_eq_true] at h ⊢
  exact fun x hx => h x (List.mem_of_mem_drop hx)

/-- `List.all` restricts to takes. -/
theorem all_take {α : Type} {p : α → Bool} {l : List α} (k : Nat)
    (h : l.all p = true) : (l.take k).all p = true := by
  rw [List.all_eq_true] at h ⊢
  exact fun x hx => h x (List.mem_of_mem_take hx)

/-- A suffix is a drop. -/
theorem suffix_eq_drop {α : Type} {r l : List α} (h : r <:+ l) :
    ∃ k, k ≤ l.length ∧ r = l.drop k := by
  obtain ⟨a, ha⟩ := h
  refine ⟨a.length, ?_, ?_⟩
  · rw [← ha]
    simp
  · rw [← ha, List.drop_left]

/-- A `>`-free list has no tag match anywhere. -/
theorem hasMatch_false_of_no_gt {q : TagPat} {t : List Char}
    (h : t.all (fun c => c ≠ '>') = true) : hasMatch q t = false := by
  induction t with
  | nil => rfl
  | cons c cs ih =>
    rw [List.all_cons, Bool.and_eq_true] at h
    rw [hasMatch_cons_false]
    refine ⟨?_, ih h.2⟩
    apply matchLen_none_of_no_gt
    rw [gtScan_none_iff]
    apply all_drop
    rw [List.all_cons, Bool.and_eq_true]
    exact ⟨h.1, h.2⟩

/-- No `q`-match can start strictly inside the case-insensitive image of
`p`'s opener. -/
theorem no_inner_start {p q : TagPat} {rep : List Char}
    (F : TagFacts p q rep) {X rest : List Char}
    (hfull : ciFull p.opener X = true) {j : Nat} (hj1 : 1 ≤ j)
    (hj2 : j < X.length)
    (h : ciPre q.opener (X.drop j ++ rest) = true) : False := by
  have hlen := ciFull_length hfull
  rcases ciPre_append_strong h with h1 | ⟨h2, h3⟩
  · have := ciPre_congr_right (ciFull_drop j hfull) h1
    rw [(F.inner_clash j hj1 (by omega)).2] at this
    exact Bool.noConfusion this
  · have := ciPre_congr_left (ciFull_drop j hfull) h2
    rw [(F.inner_clash j hj1 (by omega)).1] at this
    exact Bool.noConfusion this

/-- No `q`-match can start at a `>`. -/
theorem no_start_at_gt {q : TagPat} (hqh : q.opener.head? = some '<')
    (hnog : ∀ d ∈ q.opener, ciEq d '>' = false) {Z : List Char}
    (h : ciPre q.opener ('>' :: Z) = true) : False := by
  cases hq : q.opener with
  | nil => rw [hq] at hqh; simp at hqh
  | cons e t =>
    rw [hq, ciPre_cons, Bool.and_eq_true] at h
    have hne := hnog e (by rw [hq]; exact List.mem_cons_self e t)
    rw [hne] at h
    exact Bool.noConfusion h.1

/-- The closer does not occur in a region assembled from a
closer-occurrence-free part, the replacement, and a
closer-occurrence-free scanned remainder. -/
theorem no_closer_occ_assembled {rep cl : List Char}
    (hrep_head : rep.head? = some '<')
    (hcl_tail : ∀ d ∈ cl.drop 1, ciEq d '<' = false)
    (hcl_rep : occursCI cl rep = false)
    (hcl_repsuf : ∀ r, r <:+ rep → r ≠ [] → ciPre r cl = false)
    {Z1 T : List Char} (hZ1 : occursCI cl Z1 = false)
    (hT : occursCI cl T = false) :
    occursCI cl (Z1 ++ rep ++ T) = false := by
  by_contra hocc
  rw [Bool.not_eq_false, List.append_assoc] at hocc
  rcases occursCI_append_split hocc with h1 | h1 |
    ⟨r, hr, hne, hlt, hpre, hcont⟩
  · rw [hZ1] at h1
    exact Bool.noConfusion h1
  · rcases occursCI_append_split h1 with h2 | h2 |
      ⟨r, hr, hne, hlt, hpre, hcont⟩
    · rw [hcl_rep] at h2
      exact Bool.noConfusion h2
    · rw [hT] at h2
      exact Bool.noConfusion h2
    · rw [hcl_repsuf r hr hne] at hpre
      exact Bool.noConfusion hpre
  · have hrpos : 1 ≤ r.length := by
      cases r with
      | nil => exact absurd rfl hne
      | cons a b => simp
    cases hcd : cl.drop r.length with
    | nil =>
      have := congrArg List.length hcd
      rw [List.length_drop] at this
      simp only [List.length_nil] at this
      omega
    | cons e t =>
      cases hrep : rep with
      | nil => rw [hrep] at hrep_head; simp at hrep_head
      | cons r0 rr =>
        have hr0 : r0 = '<' := by
          rw [hrep] at hrep_head
          simpa using hrep_head
        rw [hcd, hrep, List.cons_append, ciPre_cons,
          Bool.and_eq_true] at hcont
        have he : e ∈ cl.drop 1 := by
          apply List.mem_of_mem_drop (n := r.length - 1)
          rw [List.drop_drop]
          have harith : 1 + (r.length - 1) = r.length := by omega
          rw [harith, hcd]
          exact List.mem_cons_self e t
        have hef := hcl_tail e he
        rw [hr0] at hcont
        rw [hef] at hcont
        exact Bool.noConfusion hcont.1

/-- Extract non-occurrence of the closer after the first `>` from a
failed block-pattern match. -/
theorem matchLen_none_closer_occ {p : TagPat} {s cl : List Char} {g : Nat}
    (hpre : ciPre p.opener s = true)
    (hg : gtScan (s.drop p.opener.length) = some g)
    (hclo : p.closer = some cl) (h : matchLen p s = none) :
    occursCI cl (s.drop (p.opener.length + g)) = false := by
  unfold matchLen at h
  rw [if_pos hpre, hg, hclo] at h
  dsimp only at h
  cases hocc : occScan cl (s.drop (p.opener.length + g)) with
  | none => exact occScan_none_iff.mp hocc
  | some j =>
    rw [hocc] at h
    dsimp only at h
    exact absurd h (by simp)

/-- A closerless pattern with opener and `>` present always matches. -/
theorem matchLen_none_embed_absurd {p : TagPat} {s : List Char} {g : Nat}
    (hpre : ciPre p.opener s = true)
    (hg : gtScan (s.drop p.opener.length) = some g)
    (hclo : p.closer = none) (h : matchLen p s = none) : False := by
  unfold matchLen at h
  rw [if_pos hpre, hg, hclo] at h
  dsimp only at h
  exact absurd h (by simp)

/-- Core transfer: a position where `p` does not match still has no
`p`-match after the text beyond it is globally rewritten by `q`. -/
theorem matchLen_none_scanRep {p q : TagPat} {rep : List Char}
    (F : TagFacts p q rep) {c : Char} {cs : List Char}
    (h : matchLen p (c :: cs) = none) :
    matchLen p (c :: scanRep q rep cs) = none := by
  have hopne : p.opener ≠ [] := by
    intro hop
    have hh := F.p_head
    rw [hop] at hh
    simp at hh
  by_cases hpre : ciPre p.opener (c :: cs) = true
  case neg =>
    rw [Bool.not_eq_true] at hpre
    apply matchLen_none_of_not_pre
    by_contra hpre2
    rw [Bool.not_eq_false] at hpre2
    cases hop : p.opener with
    | nil => exact hopne hop
    | cons a opT =>
      rw [hop, ciPre_cons, Bool.and_eq_true] at hpre2
      have htail : ciPre opT cs = true := by
        refine fragPres F.rep_head ?_ hpre2.2
        intro d hd
        exact F.p_tail_lt d (by rw [hop]; simpa using hd)
      have hcontr : ciPre p.opener (c :: cs) = true := by
        rw [hop, ciPre_cons, Bool.and_eq_true]
        exact ⟨hpre2.1, htail⟩
      rw [hpre] at hcontr
      exact Bool.noConfusion hcontr
  case pos =>
    obtain ⟨X, rest0, hsplit, hfull, hxlen⟩ := ciPre_split hpre
    cases X with
    | nil =>
      exfalso
      rw [List.length_nil] at hxlen
      exact hopne (List.length_eq_zero.mp hxlen.symm)
    | cons x X₁ =>
      rw [List.cons_append] at hsplit
      injection hsplit with hcx hcs
      subst hcx
      have hdrop : (c :: cs).drop p.opener.length = rest0 := by
        rw [hcs, ← List.cons_append, ← hxlen, List.drop_left]
      cases hg : gtScan rest0 with
      | none =>
        have hnoGt := gtScan_none_iff.mp hg
        have hnm : hasMatch q cs = false := by
          rw [hcs]
          apply hasMatch_append_false
          · intro r hr hne
            apply matchLen_none_of_not_pre
            by_contra hq2
            rw [Bool.not_eq_false] at hq2
            obtain ⟨k, hk, hrk⟩ := suffix_eq_drop hr
            have hne' : k < X₁.length := by
              by_contra hge
              rw [Nat.not_lt] at hge
              rw [hrk, List.drop_eq_nil_of_le hge] at hne
              exact hne rfl
            rw [hrk] at hq2
            exact no_inner_start F hfull (j := k + 1) (by omega)
              (by simp only [List.length_cons]; omega) hq2
          · exact hasMatch_false_of_no_gt hnoGt
        rw [scanRep_id_of_no_match hnm]
        exact h
      | some g =>
        cases hclo : p.closer with
        | none =>
          exact (matchLen_none_embed_absurd hpre
            (by rw [hdrop]; exact hg) hclo h).elim
        | some cl =>
          obtain ⟨hclh, hcltail, hclrep, hclrepsuf⟩ := F.closer_facts cl hclo
          obtain ⟨A, Z, hAZ, hAall, hgA⟩ := gtScan_split hg
          have hdropZ : (c :: cs).drop (p.opener.length + g) = Z := by
            rw [← List.drop_drop, hdrop, hAZ, hgA]
            have hform : A ++ '>' :: Z = (A ++ ['>']) ++ Z := by simp
            rw [hform]
            have hlen2 : (A ++ ['>']).length = A.length + 1 := by simp
            rw [← hlen2, List.drop_left]
          have hZocc : occursCI cl Z = false := by
            have hmain := matchLen_none_closer_occ hpre
              (by rw [hdrop]; exact hg) hclo h
            rw [hdropZ] at hmain
            exact hmain
          by_cases hq : hasMatch q cs = true
          case neg =>
            rw [Bool.not_eq_true] at hq
            rw [scanRep_id_of_no_match hq]
            exact h
          case pos =>
            obtain ⟨a, u, n, hau, hu, hfree, hscan⟩ := firstMatch q rep hq
            have hua : u = cs.drop a.length := by
              rw [hau, List.drop_left]
            have hX1 : ¬ a.length < X₁.length := by
              intro hlt
              have hu2 : u = X₁.drop a.length ++ rest0 := by
                rw [hua, hcs, List.drop_append_eq_append_drop,
                  Nat.sub_eq_zero_of_le (le_of_lt hlt), List.drop_zero]
              have hqpre := matchLen_some_pre hu
              rw [hu2] at hqpre
              exact no_inner_start F hfull (j := a.length + 1) (by omega)
                (by simp only [List.length_cons]; omega) hqpre
            have hb : X₁.length ≤ a.length := Nat.not_lt.mp hX1
            obtain ⟨b2, hb2⟩ : ∃ m, a.length - X₁.length = m := ⟨_, rfl⟩
            have hu3 : u = rest0.drop b2 := by
              rw [hua, hcs, List.drop_append_eq_append_drop,
                List.drop_eq_nil_of_le hb, List.nil_append, hb2]
            have ha3 : a = X₁ ++ rest0.take b2 := by
              have h1 : cs.take a.length = X₁ ++ rest0.take b2 := by
                rw [hcs, List.take_append_eq_append_take,
                  List.take_of_length_le hb, hb2]
              rw [← h1, hau, List.take_left]
            rcases Nat.lt_trichotomy b2 A.length with hlt | heq | hgt
            · -- the first q-match starts inside the [^>]* region
              have hu4 : u = A.drop b2 ++ '>' :: Z := by
                rw [hu3, hAZ, List.drop_append_eq_append_drop,
                  Nat.sub_eq_zero_of_le (le_of_lt hlt), List.drop_zero]
              have htake4 : rest0.take b2 = A.take b2 := by
                rw [hAZ, List.take_append_eq_append_take,
                  Nat.sub_eq_zero_of_le (le_of_lt hlt), List.take_zero,
                  List.append_nil]
              obtain ⟨hqpre2, g', hg', hrest⟩ := matchLen_some_elim hu
              have hA2len : q.opener.length ≤ (A.drop b2).length := by
                by_contra hgt2
                rw [Nat.not_le] at hgt2
                rw [hu4] at hqpre2
                rcases ciPre_append_strong hqpre2 with h1 | ⟨h2, h3⟩
                · have := ciPre_length h1
                  omega
                · cases hqd : q.opener.drop (A.drop b2).length with
                  | nil =>
                    have hlc := congrArg List.length hqd
                    rw [List.length_drop] at hlc
                    simp only [List.length_nil] at hlc
                    omega
                  | cons e t2 =>
                    rw [hqd, ciPre_cons, Bool.and_eq_true] at h3
                    have he : e ∈ q.opener := by
                      apply List.mem_of_mem_drop (n := (A.drop b2).length)
                      rw [hqd]
                      exact List.mem_cons_self e t2
                    have hgt3 := F.q_no_gt e he
                    rw [hgt3] at h3
                    exact Bool.noConfusion h3.1
              have hudrop : u.drop q.opener.length =
                  (A.drop b2).drop q.opener.length ++ '>' :: Z := by
                rw [hu4, List.drop_append_eq_append_drop,
                  Nat.sub_eq_zero_of_le hA2len, List.drop_zero]
              have hA2all : ((A.drop b2).drop q.opener.length).all
                  (fun d => d ≠ '>') = true :=
                all_drop _ (all_drop _ hAall)
              have hg'' : gtScan (u.drop q.opener.length) =
                  some (((A.drop b2).drop q.opener.length).length + 1) := by
                rw [hudrop]
                exact gtScan_all_then_gt hA2all _
              rw [hg'] at hg''
              have hg'val := Option.some_inj.mp hg''
              have hnge : (A.drop b2).length + 1 ≤ n := by
                rw [List.length_drop] at hg'val
                rcases hrest with ⟨_, hn⟩ | ⟨cl2, j2, _, _, hn⟩ <;> omega
              have hudn : u.drop n = Z.drop (n - ((A.drop b2).length + 1)) := by
                rw [hu4, List.drop_append_eq_append_drop,
                  List.drop_eq_nil_of_le (by omega), List.nil_append]
                have harith : n - (A.drop b2).length =
                    (n - ((A.drop b2).length + 1)) + 1 := by omega
                rw [harith]
                rfl
              obtain ⟨ri, hri, hriall⟩ := F.rep_gt_last
              rw [hscan, ha3, htake4]
              have hshape : (c :: ((X₁ ++ A.take b2) ++
                  rep ++ scanRep q rep (u.drop n))) =
                  (c :: X₁) ++ ((A.take b2 ++ ri) ++
                    '>' :: scanRep q rep (u.drop n)) := by
                rw [hri]
                simp [List.append_assoc]
              rw [hshape]
              have hWall : ((A.take b2 ++ ri)).all
                  (fun d => d ≠ '>') = true := by
                rw [List.all_append, Bool.and_eq_true]
                exact ⟨all_take _ hAall, hriall⟩
              apply matchLen_none_of_no_closer hclo
                (g := (A.take b2 ++ ri).length + 1)
              · rw [← hxlen, List.drop_left]
                exact gtScan_all_then_gt hWall _
              · have hdropT : ((c :: X₁) ++ ((A.take b2 ++ ri) ++
                    '>' :: scanRep q rep (u.drop n))).drop
                    (p.opener.length + ((A.take b2 ++ ri).length + 1)) =
                    scanRep q rep (u.drop n) := by
                  rw [← List.drop_drop, ← hxlen, List.drop_left,
                    ← List.drop_drop, List.drop_left]
                  rfl
                rw [hdropT]
                apply occursCI_scanRep F.rep_head hcltail hclrep hclrepsuf
                rw [hudn]
                exact occursCI_drop _ hZocc
            · -- the first q-match would start exactly at the first >
              exfalso
              have hu5 : u = '>' :: Z := by
                rw [hu3, heq, hAZ, List.drop_left]
              exact no_start_at_gt F.q_head F.q_no_gt
                (hu5 ▸ matchLen_some_pre hu)
            · -- the first q-match starts after the first >
              have hu6 : u = Z.drop (b2 - A.length - 1) := by
                rw [hu3, hAZ, List.drop_append_eq_append_drop,
                  List.drop_eq_nil_of_le (by omega), List.nil_append]
                have harith : b2 - A.length = (b2 - A.length - 1) + 1 := by
                  omega
                rw [harith]
                rfl
              have hZ1tk : rest0.take b2 =
                  A ++ '>' :: Z.take (b2 - A.length - 1) := by
                rw [hAZ, List.take_append_eq_append_take,
                  List.take_of_length_le (by omega)]
                congr 1
                have harith : b2 - A.length = (b2 - A.length - 1) + 1 := by
                  omega
                rw [harith]
                rfl
              rw [hscan, ha3, hZ1tk]
              have hshape : (c :: ((X₁ ++ (A ++
                  '>' :: Z.take (b2 - A.length - 1))) ++
                  rep ++ scanRep q rep (u.drop n))) =
                  (c :: X₁) ++ (A ++ '>' ::
                    (Z.take (b2 - A.length - 1) ++ rep ++
                      scanRep q rep (u.drop n))) := by
                simp [List.append_assoc]
              rw [hshape]
              apply matchLen_none_of_no_closer hclo (g := A.length + 1)
              · rw [← hxlen, List.drop_left]
                exact gtScan_all_then_gt hAall _
              · have hdropT : ((c :: X₁) ++ (A ++ '>' ::
                    (Z.take (b2 - A.length - 1) ++ rep ++
                      scanRep q rep (u.drop n)))).drop
                    (p.opener.length + (A.length + 1)) =
                    Z.take (b2 - A.length - 1) ++ rep ++
                      scanRep q rep (u.drop n) := by
                  rw [← List.drop_drop, ← hxlen, List.drop_left,
                    ← List.drop_drop, List.drop_left]
                  rfl
                rw [hdropT]
                have hZ1occ : occursCI cl (Z.take (b2 - A.length - 1)) =
                    false := by
                  by_contra hx
                  rw [Bool.not_eq_false] at hx
                  have hext := occursCI_append_left
                    (Z.drop (b2 - A.length - 1)) hx
                  rw [List.take_append_drop] at hext
                  rw [hZocc] at hext
                  exact Bool.noConfusion hext
                have hToc : occursCI cl (scanRep q rep (u.drop n)) =
                    false := by
                  apply occursCI_scanRep F.rep_head hcltail hclrep hclrepsuf
                  rw [hu6, List.drop_drop]
                  exact occursCI_drop _ hZocc
                exact no_closer_occ_assembled F.rep_head hcltail hclrep
                  hclrepsuf hZ1occ hToc

/-- After a global replace by `q`, the pattern `p` has no match, when
either `p` is `q` itself (self-elimination) or `p` had no match before
(cross-pattern preservation). -/
theorem hasMatch_scanRep_false {p q : TagPat} {rep : List Char}
    (F : TagFacts p q rep) {s : List Char}
    (hcase : q = p ∨ hasMatch p s = false) :
    hasMatch p (scanRep q rep s) = false := by
  generalize hlen : s.length = L
  induction L using Nat.strong_induction_on generalizing s with
  | _ L ih =>
    cases s with
    | nil => rfl
    | cons c cs =>
      rw [List.length_cons] at hlen
      cases hm : matchLen q (c :: cs) with
      | some n =>
        rw [scanRep_cons_match hm]
        apply hasMatch_append_false
        · intro r hr hne
          apply matchLen_none_of_not_pre
          by_contra hpp
          rw [Bool.not_eq_false] at hpp
          rcases ciPre_append_strong hpp with h1 | ⟨h2, _⟩
          · rw [(F.rep_op_clash r hr hne).1] at h1
            exact Bool.noConfusion h1
          · rw [(F.rep_op_clash r hr hne).2] at h2
            exact Bool.noConfusion h2
        · refine ih (cs.drop (n - 1)).length ?_ ?_ rfl
          · rw [List.length_drop]
            have := matchLen_pos hm
            omega
          · rcases hcase with rfl | hs
            · exact Or.inl rfl
            · rw [hasMatch_cons_false] at hs
              exact Or.inr (hasMatch_drop (n - 1) hs.2)
      | none =>
        rw [scanRep_cons_none hm, hasMatch_cons_false]
        have hmn : matchLen p (c :: cs) = none := by
          rcases hcase with rfl | hs
          · exact hm
          · exact (hasMatch_cons_false.mp hs).1
        constructor
        · exact matchLen_none_scanRep F hmn
        · refine ih cs.length (by omega) ?_ rfl
          rcases hcase with rfl | hs
          · exact Or.inl rfl
          · exact Or.inr (hasMatch_cons_false.mp hs).2

/-- A guarded sanitize step leaves no match of its own pattern and
preserves the absence of matches of any other pattern. -/
theorem sanitizeStep_no_match {p q : TagPat}
    (F : TagFacts p q unsafeComment) {s : List Char}
    (hcase : q = p ∨ hasMatch p s = false) :
    hasMatch p (sanitizeStep s q) = false := by
  unfold sanitizeStep
  split
  · exact hasMatch_scanRep_false F hcase
  · rename_i hg
    rw [Bool.not_eq_true] at hg
    rcases hcase with rfl | hs
    · exact hg
    · exact hs

/-- Absence of `p`-matches survives folding sanitize steps over any
list of dangerous patterns. -/
theorem foldl_sanitizeStep_pres {p : TagPat} (hp : p ∈ dangerousPatterns) :
    ∀ (ps : List TagPat) (s : List Char),
      (∀ q ∈ ps, q ∈ dangerousPatterns) → hasMatch p s = false →
      hasMatch p (ps.foldl sanitizeStep s) = false := by
  intro ps
  induction ps with
  | nil =>
    intro s _ h
    exact h
  | cons q ps ih =>
    intro s hsub h
    rw [List.foldl_cons]
    apply ih _ (fun r hr => hsub r (List.mem_cons_of_mem q hr))
    exact sanitizeStep_no_match
      (tagFacts_of_bool
        (html_side_facts p hp q (hsub q (List.mem_cons_self q ps))))
      (Or.inr h)

/-- After folding the sanitize steps over a pattern list drawn from the
dangerous patterns, none of its patterns matches the result. -/
theorem foldl_sanitizeStep_no_match :
    ∀ (ps : List TagPat) (s : List Char),
      (∀ q ∈ ps, q ∈ dangerousPatterns) →
      ∀ p ∈ ps, hasMatch p (ps.foldl sanitizeStep s) = false := by
  intro ps
  induction ps with
  | nil =>
    intro s _ p hp
    exact absurd hp (by simp)
  | cons q ps ih =>
    intro s hsub p hp
    rw [List.foldl_cons]
    rcases List.mem_cons.mp hp with rfl | hp2
    · apply foldl_sanitizeStep_pres (hsub p (List.mem_cons_self p ps)) ps
        _ (fun r hr => hsub r (List.mem_cons_of_mem p hr))
      exact sanitizeStep_no_match
        (tagFacts_of_bool (html_side_facts p (hsub p (List.mem_cons_self p ps))
          p (hsub p (List.mem_cons_self p ps))))
        (Or.inl rfl)
    · exact ih _ (fun r hr => hsub r (List.mem_cons_of_mem q hr)) p hp2

/-- No dangerous pattern matches the output of the markup sanitizer. -/
theorem sanitizeHTML_no_match (html : String) :
    ∀ p ∈ dangerousPatterns,
      hasMatch p (validateAndSanitizeHTML html).data = false := by
  intro p hp
  unfold validateAndSanitizeHTML
  split
  · revert hp
    revert p
    decide
  · show hasMatch p (dangerousPatterns.foldl sanitizeStep html.data) = false
    exact foldl_sanitizeStep_no_match dangerousPatterns html.data
      (fun q hq => hq) p hp

/-- A replace on a list with a match leaves some non-whitespace output
(the replacement comment starts with `<`). -/
theorem scanRep_not_allWs {p : TagPat} {rep s : List Char}
    (hrep : allWs rep = false) (h : hasMatch p s = true) :
    allWs (scanRep p rep s) = false := by
  generalize hlen : s.length = L
  induction L using Nat.strong_induction_on generalizing s with
  | _ L ih =>
    cases s with
    | nil => exact absurd h (by simp [hasMatch])
    | cons c cs =>
      rw [List.length_cons] at hlen
      cases hm : matchLen p (c :: cs) with
      | some n =>
        rw [scanRep_cons_match hm]
        unfold allWs
        rw [List.all_append]
        unfold allWs at hrep
        rw [hrep]
        rfl
      | none =>
        rw [scanRep_cons_none hm]
        rw [hasMatch, hm] at h
        simp only [Option.isSome_none, Bool.false_or] at h
        unfold allWs
        rw [List.all_cons]
        have := ih cs.length (by omega) h rfl
        unfold allWs at this
        rw [this, Bool.and_false]

/-- A sanitize step never turns non-blank content blank. -/
theorem sanitizeStep_not_allWs {s : List Char} {q : TagPat}
    (h : allWs s = false) : allWs (sanitizeStep s q) = false := by
  unfold sanitizeStep
  split
  · rename_i hg
    exact scanRep_not_allWs (by decide) hg
  · exact h

/-- Folding sanitize steps never turns non-blank content blank. -/
theorem foldl_sanitizeStep_not_allWs :
    ∀ (ps : List TagPat) (s : List Char), allWs s = false →
      allWs (ps.foldl sanitizeStep s) = false := by
  intro ps
  induction ps with
  | nil =>
    intro s h
    exact h
  | cons q ps ih =>
    intro s h
    rw [List.foldl_cons]
    exact ih _ (sanitizeStep_not_allWs h)

/-- Running a list with no matches through the sanitize fold is the
identity. -/
theorem foldl_sanitizeStep_id :
    ∀ (ps : List TagPat) (s : List Char),
      (∀ p ∈ ps, hasMatch p s = false) → ps.foldl sanitizeStep s = s := by
  intro ps
  induction ps with
  | nil =>
    intro s _
    rfl
  | cons q ps ih =>
    intro s h
    rw [List.foldl_cons]
    have hq : sanitizeStep s q = s := by
      unfold sanitizeStep
      rw [h q (List.mem_cons_self q ps)]
      simp
    rw [hq]
    exact ih s fun p hp => h p (List.mem_cons_of_mem q hp)

/-- The markup sanitizer is idempotent. -/
theorem validateAndSanitizeHTML_idem (m : String) :
    validateAndSanitizeHTML (validateAndSanitizeHTML m) =
      validateAndSanitizeHTML m := by
  by_cases hb : isBlank m = true
  · have h1 : validateAndSanitizeHTML m =
        "<p><em>No HTML content to preview</em></p>" := by
      rw [validateAndSanitizeHTML, if_pos hb]
    rw [h1]
    decide
  · rw [Bool.not_eq_true] at hb
    have hout : validateAndSanitizeHTML m =
        ⟨dangerousPatterns.foldl sanitizeStep m.data⟩ := by
      rw [validateAndSanitizeHTML, if_neg (by simp [hb])]
    rw [hout]
    have hnb : isBlank
        (⟨dangerousPatterns.foldl sanitizeStep m.data⟩ : String) = false := by
      show allWs (dangerousPatterns.foldl sanitizeStep m.data) = false
      exact foldl_sanitizeStep_not_allWs dangerousPatterns m.data hb
    rw [validateAndSanitizeHTML, if_neg (by simp [hnb])]
    show (⟨dangerousPatterns.foldl sanitizeStep
      (dangerousPatterns.foldl sanitizeStep m.data)⟩ : String) = _
    refine congrArg String.mk ?_
    apply foldl_sanitizeStep_id
    intro p hp
    have := sanitizeHTML_no_match m p hp
    rw [hout] at this
    exact this

/-!
The CSS sanitizer side of the idempotence argument.
-/

/-- The leading literal of a CSS pattern. -/
def litOf : CssPat → List Char
  | .word w _ => w
  | .importUrl => "@import".data

/-- `parScan` fails exactly on `)`-free lists. -/
theorem parScan_none_iff {t : List Char} :
    parScan t = none ↔ t.all (fun c => c ≠ ')') = true := by
  induction t with
  | nil => simp [parScan]
  | cons c cs ih =>
    by_cases hc : c = ')'
    · simp [parScan, hc]
    · simp [parScan, hc, ih, Option.map_eq_none']

/-- `ciFull` images match as prefixes. -/
theorem ciFull_to_ciPre {w x : List Char} (h : ciFull w x = true) :
    ciPre w x = true := by
  induction w generalizing x with
  | nil => rfl
  | cons a w' ih =>
    cases x with
    | nil => exact absurd h (by simp [ciFull])
    | cons c x' =>
      have h' : (ciEq a c && ciFull w' x') = true := h
      rw [Bool.and_eq_true] at h'
      rw [ciPre_cons, Bool.and_eq_true]
      exact ⟨h'.1, ih h'.2⟩

/-- A `ciPre` between lists of which the pattern is at least as long
swaps. -/
theorem ciPre_swap {a b : List Char} (h : ciPre a b = true)
    (hlen : b.length ≤ a.length) : ciPre b a = true := by
  induction a generalizing b with
  | nil =>
    cases b with
    | nil => rfl
    | cons c b' => simp at hlen
  | cons x a' ih =>
    cases b with
    | nil => rfl
    | cons c b' =>
      rw [ciPre_cons, Bool.and_eq_true] at h
      rw [ciPre_cons, Bool.and_eq_true]
      simp only [List.length_cons, Nat.add_le_add_iff_right] at hlen
      exact ⟨ciEq_symm h.1, ih h.2 hlen⟩

/-- Whitespace-class membership unfolds to list membership. -/
theorem isJsWs_mem {x : Char} (hx : isJsWs x = true) : x ∈ jsWsChars := by
  have h5 : jsWsChars.contains x = true := hx
  simpa using h5

/-- A character that clashes with every whitespace character cannot be
`ciEq` to a whitespace character. -/
theorem ws_not_ci {c0 x : Char}
    (hall : (jsWsChars.all fun w => !ciEq c0 w) = true)
    (hx : isJsWs x = true) : ciEq c0 x = false := by
  rw [List.all_eq_true] at hall
  have := hall x (isJsWs_mem hx)
  simpa using this

/-- A successful word match consumes at least one character. -/
theorem matchLenWord_pos {w : List Char} {t : Char} {s : List Char}
    {n : Nat} (h : matchLenWord w t s = some n) : 1 ≤ n := by
  unfold matchLenWord at h
  split at h
  · split at h
    · split at h
      · cases h; omega
      · exact absurd h (by simp)
    · exact absurd h (by simp)
  · exact absurd h (by simp)

/-- A successful import match consumes at least one character. -/
theorem matchLenImport_pos {s : List Char} {n : Nat}
    (h : matchLenImport s = some n) : 1 ≤ n := by
  unfold matchLenImport at h
  split at h
  · split at h
    · exact absurd h (by simp)
    · split at h
      · split at h
        · rw [Option.map_eq_some'] at h
          obtain ⟨q2, _, hq2⟩ := h
          omega
        · exact absurd h (by simp)
      · exact absurd h (by simp)
  · exact absurd h (by simp)

/-- A successful CSS match consumes at least one character. -/
theorem matchLenC_pos {p : CssPat} {s : List Char} {n : Nat}
    (h : matchLenC p s = some n) : 1 ≤ n := by
  cases p with
  | word w t => exact matchLenWord_pos h
  | importUrl => exact matchLenImport_pos h

/-- A CSS match starts with the pattern's literal. -/
theorem matchLenC_some_pre {p : CssPat} {s : List Char} {n : Nat}
    (h : matchLenC p s = some n) : ciPre (litOf p) s = true := by
  cases p with
  | word w t =>
    by_cases hc : ciPre w s = true
    · exact hc
    · rw [Bool.not_eq_true] at hc
      have h2 : matchLenWord w t s = some n := h
      unfold matchLenWord at h2
      rw [hc] at h2
      exact absurd h2 (by simp)
  | importUrl =>
    by_cases hc : ciPre "@import".data s = true
    · exact hc
    · rw [Bool.not_eq_true] at hc
      have h2 : matchLenImport s = some n := h
      unfold matchLenImport at h2
      rw [hc] at h2
      exact absurd h2 (by simp)

/-- A failed literal means no CSS match. -/
theorem matchLenC_none_of_not_pre {p : CssPat} {s : List Char}
    (h : ciPre (litOf p) s = false) : matchLenC p s = none := by
  cases p with
  | word w t =>
    show matchLenWord w t s = none
    unfold matchLenWord
    rw [show ciPre w s = false from h]
    simp
  | importUrl =>
    show matchLenImport s = none
    unfold matchLenImport
    rw [show ciPre "@import".data s = false from h]
    simp

/-- The fuel supplied to `scanRepCF` is irrelevant once it covers the
list length. -/
theorem scanRepCF_congr (p : CssPat) (rep : List Char) (f1 f2 : Nat)
    (s : List Char) (h1 : s.length ≤ f1) (h2 : s.length ≤ f2) :
    scanRepCF p rep f1 s = scanRepCF p rep f2 s := by
  induction f1 generalizing f2 s with
  | zero =>
    cases s with
    | nil => cases f2 <;> rfl
    | cons c cs => simp at h1
  | succ f1 ih =>
    cases s with
    | nil => cases f2 <;> rfl
    | cons c cs =>
      cases f2 with
      | zero => simp at h2
      | succ f2 =>
        simp only [List.length_cons] at h1 h2
        cases hm : matchLenC p (c :: cs) with
        | none =>
          simp only [scanRepCF, hm]
          rw [ih f2 cs (by omega) (by omega)]
        | some n =>
          simp only [scanRepCF, hm]
          have hd : (cs.drop (n - 1)).length ≤ cs.length := by
            rw [List.length_drop]; omega
          rw [ih f2 (cs.drop (n - 1)) (by omega) (by omega)]

/-- `scanRepC` on the empty list. -/
theorem scanRepC_nil (p : CssPat) (rep : List Char) :
    scanRepC p rep [] = [] := rfl

/-- `scanRepC` at a matching position. -/
theorem scanRepC_cons_match {p : CssPat} {rep : List Char} {c : Char}
    {cs : List Char} {n : Nat} (h : matchLenC p (c :: cs) = some n) :
    scanRepC p rep (c :: cs) = rep ++ scanRepC p rep (cs.drop (n - 1)) := by
  rw [scanRepC, scanRepC, List.length_cons]
  simp only [scanRepCF, h]
  congr 1
  exact scanRepCF_congr p rep cs.length (cs.drop (n - 1)).length
    (cs.drop (n - 1)) (by rw [List.length_drop]; omega) le_rfl

/-- `scanRepC` at a non-matching position. -/
theorem scanRepC_cons_none {p : CssPat} {rep : List Char} {c : Char}
    {cs : List Char} (h : matchLenC p (c :: cs) = none) :
    scanRepC p rep (c :: cs) = c :: scanRepC p rep cs := by
  rw [scanRepC, scanRepC, List.length_cons]
  simp only [scanRepCF, h]

/-- Unfolding `hasMatchC` to `false` on a cons. -/
theorem hasMatchC_cons_false {p : CssPat} {c : Char} {cs : List Char} :
    hasMatchC p (c :: cs) = false ↔
      matchLenC p (c :: cs) = none ∧ hasMatchC p cs = false := by
  rw [hasMatchC, Bool.or_eq_false_iff]
  constructor
  · rintro ⟨h1, h2⟩
    exact ⟨option_eq_none_of_isSome_false h1, h2⟩
  · rintro ⟨h1, h2⟩
    exact ⟨by rw [h1]; rfl, h2⟩

/-- A CSS-match-free list is unchanged by the global replace. -/
theorem scanRepC_id_of_no_match {p : CssPat} {rep : List Char}
    {s : List Char} (h : hasMatchC p s = false) : scanRepC p rep s = s := by
  induction s with
  | nil => rfl
  | cons c cs ih =>
    rw [hasMatchC_cons_false] at h
    rw [scanRepC_cons_none h.1, ih h.2]

/-- No CSS match passes to tail parts. -/
theorem hasMatchC_drop {p : CssPat} {s : List Char} (k : Nat)
    (h : hasMatchC p s = false) : hasMatchC p (s.drop k) = false := by
  induction k generalizing s with
  | zero => exact h
  | succ k ih =>
    cases s with
    | nil => exact h
    | cons c cs =>
      rw [hasMatchC_cons_false] at h
      exact ih h.2

/-- Assemble no-CSS-match on an append. -/
theorem hasMatchC_append_false {p : CssPat} {x y : List Char}
    (hx : ∀ r, r <:+ x → r ≠ [] → matchLenC p (r ++ y) = none)
    (hy : hasMatchC p y = false) : hasMatchC p (x ++ y) = false := by
  induction x with
  | nil => exact hy
  | cons c cs ih =>
    rw [List.cons_append, hasMatchC_cons_false]
    constructor
    · exact hx (c :: cs) (List.suffix_refl _) (by simp)
    · exact ih fun r hr hne => hx r (hr.trans (List.suffix_cons c cs)) hne

/-- First-match decomposition for the CSS replace. -/
theorem firstMatchC (p : CssPat) (rep : List Char) {t : List Char}
    (h : hasMatchC p t = true) :
    ∃ a u n, t = a ++ u ∧ matchLenC p u = some n ∧
      (∀ r, r <:+ a → r ≠ [] → matchLenC p (r ++ u) = none) ∧
      scanRepC p rep t = a ++ rep ++ scanRepC p rep (u.drop n) := by
  induction t with
  | nil => simp [hasMatchC] at h
  | cons c cs ih =>
    cases hm : matchLenC p (c :: cs) with
    | some n =>
      refine ⟨[], c :: cs, n, rfl, hm, ?_, ?_⟩
      · intro r hr hne
        exact absurd (List.suffix_nil.mp hr) hne
      · rw [scanRepC_cons_match hm]
        cases n with
        | zero => exact absurd (matchLenC_pos hm) (by omega)
        | succ m => rfl
    | none =>
      rw [hasMatchC, hm] at h
      simp only [Option.isSome_none, Bool.false_or] at h
      obtain ⟨a, u, n, hau, hu, hfree, hscan⟩ := ih h
      refine ⟨c :: a, u, n, by rw [hau, List.cons_append], hu, ?_, ?_⟩
      · intro r hr hne
        rcases List.suffix_cons_iff.mp hr with hr | hr
        · rw [hr, List.cons_append, ← hau]
          exact hm
        · exact hfree r hr hne
      · rw [scanRepC_cons_none hm, hscan, List.cons_append,
          List.cons_append]

/-- Fragment preservation through the CSS replace. -/
theorem fragPresC {q : CssPat} {rep : List Char} {r0 : Char}
    (hrep : rep.head? = some r0) {f t : List Char}
    (hf : ∀ d ∈ f, ciEq d r0 = false)
    (h : ciPre f (scanRepC q rep t) = true) : ciPre f t = true := by
  generalize hlen : t.length = L
  induction L using Nat.strong_induction_on generalizing f t with
  | _ L ih =>
    cases t with
    | nil =>
      rw [scanRepC_nil] at h
      cases f with
      | nil => rfl
      | cons d f' => exact absurd h (by simp [ciPre])
    | cons c cs =>
      rw [List.length_cons] at hlen
      cases f with
      | nil => rfl
      | cons d f' =>
        cases hm : matchLenC q (c :: cs) with
        | some n =>
          rw [scanRepC_cons_match hm] at h
          cases rep with
          | nil => exact absurd hrep (by simp)
          | cons r0' rrest =>
            have hr0 : r0' = r0 := by simpa using hrep
            rw [List.cons_append, ciPre_cons, Bool.and_eq_true] at h
            rw [hr0] at h
            exact absurd h.1
              (by rw [hf d (List.mem_cons_self d f')]; simp)
        | none =>
          rw [scanRepC_cons_none hm, ciPre_cons, Bool.and_eq_true] at h
          rw [ciPre_cons, Bool.and_eq_true]
          refine ⟨h.1, ?_⟩
          exact ih cs.length (by omega)
            (fun e he => hf e (List.mem_cons_of_mem d he)) h.2 rfl

/-- A character-literal never occurs after the CSS replace when it
occurs neither in the original nor in the replacement. -/
theorem all_ne_scanRepC {p : CssPat} {rep : List Char} {x : Char}
    {t : List Char} (hrep : rep.all (fun c => c ≠ x) = true)
    (h : t.all (fun c => c ≠ x) = true) :
    (scanRepC p rep t).all (fun c => c ≠ x) = true := by
  generalize hlen : t.length = L
  induction L using Nat.strong_induction_on generalizing t with
  | _ L ih =>
    cases t with
    | nil => exact h
    | cons c cs =>
      rw [List.length_cons] at hlen
      rw [List.all_cons, Bool.and_eq_true] at h
      cases hm : matchLenC p (c :: cs) with
      | none =>
        rw [scanRepC_cons_none hm, List.all_cons, Bool.and_eq_true]
        exact ⟨h.1, ih cs.length (by omega) h.2 rfl⟩
      | some n =>
        rw [scanRepC_cons_match hm, List.all_append, Bool.and_eq_true]
        refine ⟨hrep, ?_⟩
        have hd : (cs.drop (n - 1)).length < L := by
          rw [List.length_drop]
          omega
        exact ih (cs.drop (n - 1)).length hd (all_drop _ h.2) rfl

/-- `wsLen` of a cons headed by a non-whitespace character. -/
theorem wsLen_cons_of_not_ws {d : Char} (hd : isJsWs d = false)
    (u : List Char) : wsLen (d :: u) = 0 := by
  simp [wsLen, hd]

/-- A zero `wsLen` forces a non-whitespace head. -/
theorem wsLen_zero_head {e : Char} {ys : List Char}
    (h : wsLen (e :: ys) = 0) : isJsWs e = false := by
  by_contra he
  rw [Bool.not_eq_false] at he
  have h2 : wsLen (e :: ys) = wsLen ys + 1 := by
    simp [wsLen, he]
  omega

/-- `wsLen` across an all-whitespace prefix. -/
theorem wsLen_append_allWs {W : List Char} (hW : allWs W = true)
    (z : List Char) : wsLen (W ++ z) = W.length + wsLen z := by
  induction W with
  | nil => simp
  | cons x W' ih =>
    have hx : isJsWs x = true := by
      have h2 : (x :: W').all isJsWs = true := hW
      rw [List.all_cons, Bool.and_eq_true] at h2
      exact h2.1
    have hW' : allWs W' = true := by
      have h2 : (x :: W').all isJsWs = true := hW
      rw [List.all_cons, Bool.and_eq_true] at h2
      exact h2.2
    rw [List.cons_append]
    have h2 : wsLen (x :: (W' ++ z)) = wsLen (W' ++ z) + 1 := by
      simp [wsLen, hx]
    rw [h2, ih hW', List.length_cons]
    omega

/-- Split off the maximal leading whitespace run. -/
theorem wsLen_decomp (s : List Char) :
    ∃ W z, s = W ++ z ∧ allWs W = true ∧ W.length = wsLen s ∧
      wsLen z = 0 ∧ z = s.drop (wsLen s) := by
  induction s with
  | nil => exact ⟨[], [], rfl, rfl, rfl, rfl, rfl⟩
  | cons c cs ih =>
    by_cases hc : isJsWs c = true
    · obtain ⟨W, z, h1, h2, h3, h4, h5⟩ := ih
      have hlen : wsLen (c :: cs) = wsLen cs + 1 := by simp [wsLen, hc]
      refine ⟨c :: W, z, by rw [List.cons_append, ← h1], ?_, ?_, h4, ?_⟩
      · show (c :: W).all isJsWs = true
        rw [List.all_cons, Bool.and_eq_true]
        exact ⟨hc, h2⟩
      · rw [hlen, List.length_cons, h3]
      · rw [hlen, List.drop_succ_cons]
        exact h5
    · rw [Bool.not_eq_true] at hc
      have hlen : wsLen (c :: cs) = 0 := by simp [wsLen, hc]
      refine ⟨[], c :: cs, rfl, rfl, by rw [hlen]; rfl, by rw [hlen],
        by rw [hlen]; rfl⟩

/-- Evaluate a word pattern on a decomposed list: the case-insensitive
image of the word, a whitespace run, then a non-whitespace head. -/
theorem matchLenWord_red_cons {w : List Char} {t : Char} {X W : List Char}
    {d : Char} {u : List Char} (hX : ciFull w X = true)
    (hW : allWs W = true) (hd : isJsWs d = false) :
    matchLenWord w t (X ++ (W ++ d :: u)) =
      if d = t then some (w.length + W.length + 1) else none := by
  have hpre : ciPre w (X ++ (W ++ d :: u)) = true :=
    ciPre_append_right _ (ciFull_to_ciPre hX)
  have hXlen : w.length = X.length := ciFull_length hX
  have hdrop : (X ++ (W ++ d :: u)).drop w.length = W ++ d :: u := by
    rw [hXlen, List.drop_left]
  have hws : wsLen (W ++ d :: u) = W.length := by
    rw [wsLen_append_allWs hW, wsLen_cons_of_not_ws hd, Nat.add_zero]
  unfold matchLenWord
  rw [if_pos hpre, hdrop, hws, List.drop_left, List.head?_cons]

/-- Evaluate the import pattern with no whitespace after the word. -/
theorem matchLenImport_red1 {X z : List Char}
    (hX : ciFull "@import".data X = true) (hz : wsLen z = 0) :
    matchLenImport (X ++ z) = none := by
  have hpre : ciPre "@import".data (X ++ z) = true :=
    ciPre_append_right _ (ciFull_to_ciPre hX)
  have hXlen : X.length = 7 := by
    rw [← ciFull_length hX]
    rfl
  have hdrop : (X ++ z).drop 7 = z := by rw [← hXlen, List.drop_left]
  unfold matchLenImport
  rw [if_pos hpre, hdrop, if_pos hz]

/-- Evaluate the import pattern with whitespace but no `url`. -/
theorem matchLenImport_red2 {X W z : List Char}
    (hX : ciFull "@import".data X = true) (hW : allWs W = true)
    (hWne : W ≠ []) (hz : wsLen z = 0)
    (hurl : ciPre "url".data z = false) :
    matchLenImport (X ++ (W ++ z)) = none := by
  have hpre : ciPre "@import".data (X ++ (W ++ z)) = true :=
    ciPre_append_right _ (ciFull_to_ciPre hX)
  have hXlen : X.length = 7 := by
    rw [← ciFull_length hX]
    rfl
  have hdrop : (X ++ (W ++ z)).drop 7 = W ++ z := by
    rw [← hXlen, List.drop_left]
  have hws : wsLen (W ++ z) = W.length := by
    rw [wsLen_append_allWs hW, hz, Nat.add_zero]
  have hWpos : 0 < W.length := List.length_pos.mpr hWne
  unfold matchLenImport
  rw [if_pos hpre, hdrop, hws, if_neg (by omega), List.drop_left,
    if_neg (by simp [hurl])]

/-- Evaluate the import pattern with `@import`, whitespace, `url`,
optional whitespace, and then something other than `(`. -/
theorem matchLenImport_red3 {X W U V z : List Char}
    (hX : ciFull "@import".data X = true) (hW : allWs W = true)
    (hWne : W ≠ []) (hU : ciFull "url".data U = true)
    (hV : allWs V = true) (hz : wsLen z = 0)
    (hpar : ∀ e u, z = e :: u → e ≠ '(') :
    matchLenImport (X ++ (W ++ (U ++ (V ++ z)))) = none := by
  have hpre : ciPre "@import".data (X ++ (W ++ (U ++ (V ++ z)))) = true :=
    ciPre_append_right _ (ciFull_to_ciPre hX)
  have hXlen : X.length = 7 := by
    rw [← ciFull_length hX]
    rfl
  have hUlen : U.length = 3 := by
    rw [← ciFull_length hU]
    rfl
  obtain ⟨u0, U', hUc⟩ : ∃ u0 U', U = u0 :: U' := by
    cases U with
    | nil => simp at hUlen
    | cons a b => exact ⟨a, b, rfl⟩
  have hu0 : ciEq 'u' u0 = true := by
    rw [hUc] at hU
    have h2 : (ciEq 'u' u0 && ciFull ['r', 'l'] U') = true := hU
    rw [Bool.and_eq_true] at h2
    exact h2.1
  have hu0ws : isJsWs u0 = false := by
    by_contra hws0
    rw [Bool.not_eq_false] at hws0
    have h3 := ws_not_ci
      (show (jsWsChars.all fun x => !ciEq 'u' x) = true by decide) hws0
    rw [h3] at hu0
    exact Bool.noConfusion hu0
  have hdrop7 : (X ++ (W ++ (U ++ (V ++ z)))).drop 7 =
      W ++ (U ++ (V ++ z)) := by
    rw [← hXlen, List.drop_left]
  have hwsU : wsLen (U ++ (V ++ z)) = 0 := by
    rw [hUc, List.cons_append]
    exact wsLen_cons_of_not_ws hu0ws _
  have hws1 : wsLen (W ++ (U ++ (V ++ z))) = W.length := by
    rw [wsLen_append_allWs hW, hwsU, Nat.add_zero]
  have hWpos : 0 < W.length := List.length_pos.mpr hWne
  have hurl : ciPre "url".data (U ++ (V ++ z)) = true :=
    ciPre_append_right _ (ciFull_to_ciPre hU)
  have hdropW : (W ++ (U ++ (V ++ z))).drop W.length = U ++ (V ++ z) :=
    List.drop_left W _
  have hdropW3 : (W ++ (U ++ (V ++ z))).drop (W.length + 3) = V ++ z := by
    rw [← List.drop_drop, hdropW, ← hUlen, List.drop_left]
  have hwsV : wsLen (V ++ z) = V.length := by
    rw [wsLen_append_allWs hV, hz, Nat.add_zero]
  have hdropV : (V ++ z).drop V.length = z := List.drop_left V z
  unfold matchLenImport
  rw [if_pos hpre, hdrop7, hws1, if_neg (by omega), hdropW, if_pos hurl,
    hdropW3, hwsV, hdropV]
  cases z with
  | nil => rfl
  | cons e u =>
    split
    · rename_i r3 heq
      injection heq with h1 h2
      exact absurd h1 (hpar e u rfl)
    · rfl

/-- Evaluate the import pattern on a full decomposition up to the opening
parenthesis: the result is the parenthesis scan of the remainder. -/
theorem matchLenImport_red4 {X W U V r3 : List Char}
    (hX : ciFull "@import".data X = true) (hW : allWs W = true)
    (hWne : W ≠ []) (hU : ciFull "url".data U = true)
    (hV : allWs V = true) :
    matchLenImport (X ++ (W ++ (U ++ (V ++ '(' :: r3)))) =
      (parScan r3).map
        (fun q2 => 7 + W.length + 3 + V.length + 1 + q2) := by
  have hpre : ciPre "@import".data
      (X ++ (W ++ (U ++ (V ++ '(' :: r3)))) = true :=
    ciPre_append_right _ (ciFull_to_ciPre hX)
  have hXlen : X.length = 7 := by
    rw [← ciFull_length hX]
    rfl
  have hUlen : U.length = 3 := by
    rw [← ciFull_length hU]
    rfl
  obtain ⟨u0, U', hUc⟩ : ∃ u0 U', U = u0 :: U' := by
    cases U with
    | nil => simp at hUlen
    | cons a b => exact ⟨a, b, rfl⟩
  have hu0 : ciEq 'u' u0 = true := by
    rw [hUc] at hU
    have h2 : (ciEq 'u' u0 && ciFull ['r', 'l'] U') = true := hU
    rw [Bool.and_eq_true] at h2
    exact h2.1
  have hu0ws : isJsWs u0 = false := by
    by_contra hws0
    rw [Bool.not_eq_false] at hws0
    have h3 := ws_not_ci
      (show (jsWsChars.all fun x => !ciEq 'u' x) = true by decide) hws0
    rw [h3] at hu0
    exact Bool.noConfusion hu0
  have hdrop7 : (X ++ (W ++ (U ++ (V ++ '(' :: r3)))).drop 7 =
      W ++ (U ++ (V ++ '(' :: r3)) := by
    rw [← hXlen, List.drop_left]
  have hwsU : wsLen (U ++ (V ++ '(' :: r3)) = 0 := by
    rw [hUc, List.cons_append]
    exact wsLen_cons_of_not_ws hu0ws _
  have hws1 : wsLen (W ++ (U ++ (V ++ '(' :: r3))) = W.length := by
    rw [wsLen_append_allWs hW, hwsU, Nat.add_zero]
  have hWpos : 0 < W.length := List.length_pos.mpr hWne
  have hurl : ciPre "url".data (U ++ (V ++ '(' :: r3)) = true :=
    ciPre_append_right _ (ciFull_to_ciPre hU)
  have hdropW : (W ++ (U ++ (V ++ '(' :: r3))).drop W.length =
      U ++ (V ++ '(' :: r3) :=
    List.drop_left W _
  have hdropW3 : (W ++ (U ++ (V ++ '(' :: r3))).drop (W.length + 3) =
      V ++ '(' :: r3 := by
    rw [← List.drop_drop, hdropW, ← hUlen, List.drop_left]
  have hwsV : wsLen (V ++ '(' :: r3) = V.length := by
    rw [wsLen_append_allWs hV, wsLen_cons_of_not_ws (by decide) r3,
      Nat.add_zero]
  have hdropV : (V ++ '(' :: r3).drop V.length = '(' :: r3 :=
    List.drop_left V _
  unfold matchLenImport
  rw [if_pos hpre, hdrop7, hws1, if_neg (by omega), hdropW, if_pos hurl,
    hdropW3, hwsV, hdropV]
  split
  · rename_i r3' heq
    injection heq with h1 h2
    rw [h2]
  · rename_i hne
    exact absurd rfl (hne r3)

/-- All character-level side conditions needed for the CSS idempotence
argument, for a preserved pattern `p`, a scanned pattern `q` and a
replacement `rep`, bundled as one decidable check. -/
def cssSideFacts (p q : CssPat) (rep : List Char) : Bool :=
  (rep.head? == some '/') &&
  (rep.all fun c => decide (c ≠ ')')) &&
  (!(litOf p).isEmpty) &&
  (((litOf p).drop 1).all fun d => !ciEq d '/') &&
  (match p with
   | CssPat.word _ t0 => decide (t0 ≠ '/')
   | CssPat.importUrl => true) &&
  (match litOf q with
   | [] => false
   | c0 :: _ => (jsWsChars.all fun x => !ciEq c0 x) && !ciEq c0 '(') &&
  ((List.range (litOf p).length).all fun j =>
    decide (j = 0) ||
      (!ciPre ((litOf p).drop j) (litOf q) &&
       !ciPre (litOf q) ((litOf p).drop j))) &&
  ((List.range 3).all fun j =>
    !ciPre ("url".data.drop j) (litOf q) &&
    !ciPre (litOf q) ("url".data.drop j)) &&
  (rep.tails.all fun r =>
    r.isEmpty || (!ciPre (litOf p) r && !ciPre r (litOf p)))

/-- The CSS side conditions as propositions. -/
structure CssFacts (p q : CssPat) (rep : List Char) : Prop where
  rep_head : rep.head? = some '/'
  rep_no_par : rep.all (fun c => c ≠ ')') = true
  p_lit_ne : litOf p ≠ []
  p_tail_slash : ∀ d ∈ (litOf p).drop 1, ciEq d '/' = false
  p_term : ∀ w t0, p = CssPat.word w t0 → t0 ≠ '/'
  q_head : ∃ c0 lit, litOf q = c0 :: lit ∧
    (∀ x, isJsWs x = true → ciEq c0 x = false) ∧
    (∀ u, ciPre (litOf q) ('(' :: u) = false)
  p_inner : ∀ j, 1 ≤ j → j < (litOf p).length →
    ciPre ((litOf p).drop j) (litOf q) = false ∧
    ciPre (litOf q) ((litOf p).drop j) = false
  url_clash : ∀ j, j < 3 →
    ciPre ("url".data.drop j) (litOf q) = false ∧
    ciPre (litOf q) ("url".data.drop j) = false
  rep_lit_clash : ∀ r, r <:+ rep → r ≠ [] →
    ciPre (litOf p) r = false ∧ ciPre r (litOf p) = false

/-- Decode the decidable CSS check into the proposition bundle. -/
theorem cssFacts_of_bool {p q : CssPat} {rep : List Char}
    (h : cssSideFacts p q rep = true) : CssFacts p q rep := by
  unfold cssSideFacts at h
  rw [Bool.and_eq_true, Bool.and_eq_true, Bool.and_eq_true,
    Bool.and_eq_true, Bool.and_eq_true, Bool.and_eq_true,
    Bool.and_eq_true, Bool.and_eq_true] at h
  obtain ⟨⟨⟨⟨⟨⟨⟨⟨h1, h2⟩, h3⟩, h4⟩, h5⟩, h6⟩, h7⟩, h8⟩, h9⟩ := h
  refine ⟨eq_of_beq h1, ?_, ?_, ?_, ?_, ?_, ?_, ?_, ?_⟩
  · rw [List.all_eq_true] at h2 ⊢
    intro x hx
    simpa using h2 x hx
  · intro he
    rw [he] at h3
    exact Bool.noConfusion h3
  · intro d hd
    have := List.all_eq_true.mp h4 d hd
    simpa using this
  · intro w t0 hp
    rw [hp] at h5
    exact of_decide_eq_true h5
  · cases hq : litOf q with
    | nil =>
      rw [hq] at h6
      exact Bool.noConfusion h6
    | cons c0 lit =>
      rw [hq, Bool.and_eq_true] at h6
      refine ⟨c0, lit, rfl, ?_, ?_⟩
      · intro x hx
        exact ws_not_ci h6.1 hx
      · intro u
        rw [ciPre_cons]
        have hc : ciEq c0 '(' = false := by simpa using h6.2
        rw [hc]
        rfl
  · intro j hj1 hj2
    have := List.all_eq_true.mp h7 j (List.mem_range.mpr hj2)
    rw [Bool.or_eq_true] at this
    rcases this with hthis | hthis
    · exact absurd (of_decide_eq_true hthis) (by omega)
    · rw [Bool.and_eq_true] at hthis
      constructor
      · simpa using hthis.1
      · simpa using hthis.2
  · intro j hj
    have := List.all_eq_true.mp h8 j (List.mem_range.mpr hj)
    rw [Bool.and_eq_true] at this
    constructor
    · simpa using this.1
    · simpa using this.2
  · intro r hr hne
    have := List.all_eq_true.mp h9 r ((List.mem_tails r rep).mpr hr)
    rw [Bool.or_eq_true] at this
    rcases this with hthis | hthis
    · exact absurd (List.isEmpty_iff.mp hthis) hne
    · rw [Bool.and_eq_true] at hthis
      constructor
      · simpa using hthis.1
      · simpa using hthis.2

/-- The CSS side conditions hold for every pair of dangerous CSS patterns
with the fixed removal comment. -/
theorem css_side_facts :
    ∀ p ∈ dangerousCssPatterns, ∀ q ∈ dangerousCssPatterns,
      cssSideFacts p q unsafeCssComment = true := by
  decide

/-- No `q`-match can start at offset `j` inside the case-insensitive
image of a word that clashes with `q`'s literal at that offset. -/
theorem no_match_at_image_off {q : CssPat} {w X : List Char}
    (hfull : ciFull w X = true) {j : Nat} (hj : j < X.length)
    (hcl1 : ciPre (w.drop j) (litOf q) = false)
    (hcl2 : ciPre (litOf q) (w.drop j) = false)
    (suf : List Char) : matchLenC q (X.drop j ++ suf) = none := by
  apply matchLenC_none_of_not_pre
  by_contra hpp
  rw [Bool.not_eq_false] at hpp
  rcases ciPre_append_strong hpp with h1 | ⟨h2, _⟩
  · have := ciPre_congr_right (ciFull_drop j hfull) h1
    rw [hcl2] at this
    exact Bool.noConfusion this
  · have := ciPre_congr_left (ciFull_drop j hfull) h2
    rw [hcl1] at this
    exact Bool.noConfusion this

/-- No `q`-match can start at a whitespace character. -/
theorem no_match_ws_head {q : CssPat} {c0 : Char} {lit : List Char}
    (hlit : litOf q = c0 :: lit)
    (hws : ∀ x, isJsWs x = true → ciEq c0 x = false)
    {x : Char} (hx : isJsWs x = true) (u : List Char) :
    matchLenC q (x :: u) = none := by
  apply matchLenC_none_of_not_pre
  rw [hlit, ciPre_cons, hws x hx]
  rfl

/-- No `q`-match can start anywhere inside a whitespace run. -/
theorem no_match_in_ws {q : CssPat} {c0 : Char} {lit : List Char}
    (hlit : litOf q = c0 :: lit)
    (hws : ∀ x, isJsWs x = true → ciEq c0 x = false)
    {W : List Char} (hW : allWs W = true) (suf : List Char) :
    ∀ j, j < W.length → matchLenC q (W.drop j ++ suf) = none := by
  intro j hj
  cases hWd : W.drop j with
  | nil =>
    have := congrArg List.length hWd
    rw [List.length_drop] at this
    simp only [List.length_nil] at this
    omega
  | cons x u =>
    have hxW : x ∈ W := by
      apply List.mem_of_mem_drop (n := j)
      rw [hWd]
      exact List.mem_cons_self x u
    have hx : isJsWs x = true := List.all_eq_true.mp hW x hxW
    rw [List.cons_append]
    exact no_match_ws_head hlit hws hx (u ++ suf)

/-- An all-whitespace list has no `q`-match anywhere. -/
theorem hasMatchC_allWs {q : CssPat} {c0 : Char} {lit : List Char}
    (hlit : litOf q = c0 :: lit)
    (hws : ∀ x, isJsWs x = true → ciEq c0 x = false)
    {W : List Char} (hW : allWs W = true) : hasMatchC q W = false := by
  induction W with
  | nil => rfl
  | cons x W' ih =>
    have h2 : (x :: W').all isJsWs = true := hW
    rw [List.all_cons, Bool.and_eq_true] at h2
    rw [hasMatchC_cons_false]
    exact ⟨no_match_ws_head hlit hws h2.1 W', ih h2.2⟩

/-- A prefix at none of whose offsets the pattern matches passes through
the global replace untouched. -/
theorem scanRepC_append_inert {q : CssPat} {rep : List Char}
    {A z : List Char}
    (h : ∀ j, j < A.length → matchLenC q (A.drop j ++ z) = none) :
    scanRepC q rep (A ++ z) = A ++ scanRepC q rep z := by
  induction A with
  | nil => rfl
  | cons a A' ih =>
    have h0 : matchLenC q (a :: (A' ++ z)) = none := by
      have := h 0 (by simp)
      simpa using this
    rw [List.cons_append, scanRepC_cons_none h0]
    rw [ih fun j hj => by
      have := h (j + 1) (by simp only [List.length_cons]; omega)
      simpa [List.drop_succ_cons] using this]
    rfl

/-- Core CSS transfer: a position where `p` does not match still has no
`p`-match after the text beyond it is globally rewritten by `q`. -/
theorem matchLenC_none_scanRepC {p q : CssPat} {rep : List Char}
    (F : CssFacts p q rep) {c : Char} {cs : List Char}
    (h : matchLenC p (c :: cs) = none) :
    matchLenC p (c :: scanRepC q rep cs) = none := by
  obtain ⟨c0, lit0, hqlit, hqws, hqpar⟩ := F.q_head
  obtain ⟨rr0, hrepc0⟩ : ∃ rr, rep = '/' :: rr := by
    cases hrc : rep with
    | nil =>
      have h2 := F.rep_head
      rw [hrc] at h2
      exact absurd h2 (by simp)
    | cons a b =>
      have h2 := F.rep_head
      rw [hrc] at h2
      have ha : a = '/' := by simpa using h2
      exact ⟨b, by rw [ha]⟩
  by_cases hpre : ciPre (litOf p) (c :: cs) = true
  case neg =>
    rw [Bool.not_eq_true] at hpre
    apply matchLenC_none_of_not_pre
    by_contra hpp
    rw [Bool.not_eq_false] at hpp
    cases hlit : litOf p with
    | nil => exact F.p_lit_ne hlit
    | cons d f =>
      rw [hlit, ciPre_cons, Bool.and_eq_true] at hpp
      have hfr : ciPre f cs = true := by
        apply fragPresC F.rep_head ?_ hpp.2
        intro e he
        apply F.p_tail_slash
        rw [hlit]
        simpa using he
      have hcontr : ciPre (litOf p) (c :: cs) = true := by
        rw [hlit, ciPre_cons, Bool.and_eq_true]
        exact ⟨hpp.1, hfr⟩
      rw [hpre] at hcontr
      exact Bool.noConfusion hcontr
  case pos =>
    cases p with
    | word w t =>
      have hpre' : ciPre w (c :: cs) = true := hpre
      have hwne : w ≠ [] := F.p_lit_ne
      have ht : t ≠ '/' := F.p_term w t rfl
      obtain ⟨X, y, hxy, hfull, hXlen⟩ := ciPre_split hpre'
      obtain ⟨W, z, hyz, hWws, hWlen, hz0, hzdrop⟩ := wsLen_decomp y
      cases X with
      | nil =>
        cases w with
        | nil => exact absurd rfl hwne
        | cons a ww => simp at hXlen
      | cons x0 X' =>
        have hxy2 := hxy
        rw [List.cons_append] at hxy2
        injection hxy2 with hcx hcs0
        have hinertX : ∀ suf,
            scanRepC q rep (X' ++ suf) = X' ++ scanRepC q rep suf := by
          intro suf
          apply scanRepC_append_inert
          intro j hj
          have hXd : X'.drop j = (x0 :: X').drop (j + 1) := rfl
          rw [hXd]
          have hj1 : j + 1 < (x0 :: X').length := by
            simp only [List.length_cons]
            omega
          have hjw : j + 1 < w.length := by
            rw [← hXlen]
            exact hj1
          exact no_match_at_image_off hfull hj1
            (F.p_inner (j + 1) (by omega) hjw).1
            (F.p_inner (j + 1) (by omega) hjw).2 suf
        have hinertW : ∀ suf,
            scanRepC q rep (W ++ suf) = W ++ scanRepC q rep suf := by
          intro suf
          apply scanRepC_append_inert
          intro j hj
          exact no_match_in_ws hqlit hqws hWws suf j hj
        have hcons : ∀ T : List Char,
            c :: (X' ++ T) = (x0 :: X') ++ T := by
          intro T
          rw [hcx]
          rfl
        cases z with
        | nil =>
          have hyW : y = W := by rw [hyz, List.append_nil]
          have hnm : hasMatchC q cs = false := by
            rw [hcs0, hyW]
            apply hasMatchC_append_false
            · intro r hr hne
              obtain ⟨k, hk, hrk⟩ := suffix_eq_drop hr
              have hklt : k < X'.length := by
                cases Nat.lt_or_ge k X'.length with
                | inl h2 => exact h2
                | inr h2 =>
                  have hnil : X'.drop k = [] := by
                    rw [List.drop_eq_nil_iff_le]
                    exact h2
                  exact absurd (hrk.trans hnil) hne
              rw [hrk]
              have hXd : X'.drop k = (x0 :: X').drop (k + 1) := rfl
              rw [hXd]
              have hk1 : k + 1 < (x0 :: X').length := by
                simp only [List.length_cons]
                omega
              have hjw : k + 1 < w.length := by
                rw [← hXlen]
                exact hk1
              exact no_match_at_image_off hfull hk1
                (F.p_inner (k + 1) (by omega) hjw).1
                (F.p_inner (k + 1) (by omega) hjw).2 W
            · exact hasMatchC_allWs hqlit hqws hWws
          rw [scanRepC_id_of_no_match hnm]
          exact h
        | cons d u =>
          have hd_ws : isJsWs d = false := wsLen_zero_head hz0
          have hshape0 : c :: cs = (x0 :: X') ++ (W ++ d :: u) := by
            rw [hxy, hyz]
          have hdt : d ≠ t := by
            intro hdt0
            have h2 := h
            rw [hshape0] at h2
            have h3 : matchLenWord w t
                ((x0 :: X') ++ (W ++ d :: u)) = none := h2
            rw [matchLenWord_red_cons hfull hWws hd_ws,
              if_pos hdt0] at h3
            exact absurd h3 (by simp)
          rw [hcs0, hyz, hinertX, hinertW]
          cases hm2 : matchLenC q (d :: u) with
          | none =>
            rw [scanRepC_cons_none hm2, hcons]
            show matchLenWord w t
              ((x0 :: X') ++ (W ++ d :: scanRepC q rep u)) = none
            rw [matchLenWord_red_cons hfull hWws hd_ws, if_neg hdt]
          | some n =>
            rw [scanRepC_cons_match hm2, hcons]
            obtain ⟨T, hT⟩ : ∃ T, scanRepC q rep (u.drop (n - 1)) = T :=
              ⟨_, rfl⟩
            rw [hT, hrepc0, List.cons_append]
            show matchLenWord w t
              ((x0 :: X') ++ (W ++ '/' :: (rr0 ++ T))) = none
            rw [matchLenWord_red_cons hfull hWws (by decide),
              if_neg fun hh => ht hh.symm]
    | importUrl =>
      have hpre' : ciPre "@import".data (c :: cs) = true := hpre
      obtain ⟨X, y, hxy, hfull, hXlen⟩ := ciPre_split hpre'
      cases X with
      | nil => exact absurd hXlen (by decide)
      | cons x0 X' =>
        have hxy2 := hxy
        rw [List.cons_append] at hxy2
        injection hxy2 with hcx hcs0
        have hinertX : ∀ suf,
            scanRepC q rep (X' ++ suf) = X' ++ scanRepC q rep suf := by
          intro suf
          apply scanRepC_append_inert
          intro j hj
          have hXd : X'.drop j = (x0 :: X').drop (j + 1) := rfl
          rw [hXd]
          have hj1 : j + 1 < (x0 :: X').length := by
            simp only [List.length_cons]
            omega
          have hjw : j + 1 < ("@import".data).length := by
            rw [← hXlen]
            exact hj1
          exact no_match_at_image_off hfull hj1
            (F.p_inner (j + 1) (by omega) hjw).1
            (F.p_inner (j + 1) (by omega) hjw).2 suf
        have hcons : ∀ T : List Char,
            c :: (X' ++ T) = (x0 :: X') ++ T := by
          intro T
          rw [hcx]
          rfl
        by_cases hk1 : wsLen y = 0
        · have hz' : wsLen (scanRepC q rep y) = 0 := by
            cases y with
            | nil => rfl
            | cons e ys =>
              have he : isJsWs e = false := wsLen_zero_head hk1
              cases hm2 : matchLenC q (e :: ys) with
              | none =>
                rw [scanRepC_cons_none hm2]
                exact wsLen_cons_of_not_ws he _
              | some n =>
                rw [scanRepC_cons_match hm2, hrepc0, List.cons_append]
                exact wsLen_cons_of_not_ws (by decide) _
          rw [hcs0, hinertX, hcons]
          show matchLenImport ((x0 :: X') ++ scanRepC q rep y) = none
          exact matchLenImport_red1 hfull hz'
        · obtain ⟨W, z, hyz, hWws, hWlen, hz0, hzdrop⟩ := wsLen_decomp y
          have hWne : W ≠ [] := by
            intro hW0
            rw [hW0] at hWlen
            exact hk1 hWlen.symm
          have hinertW : ∀ suf,
              scanRepC q rep (W ++ suf) = W ++ scanRepC q rep suf := by
            intro suf
            apply scanRepC_append_inert
            intro j hj
            exact no_match_in_ws hqlit hqws hWws suf j hj
          by_cases hurl : ciPre "url".data z = true
          · obtain ⟨U, v, hzUv, hUfull, hUlen3⟩ := ciPre_split hurl
            have hU3 : U.length = 3 := by
              rw [hUlen3]
              rfl
            obtain ⟨V, zz, hvV, hVws, hVlen, hzz0, hzzdrop⟩ :=
              wsLen_decomp v
            have hinertU : ∀ suf,
                scanRepC q rep (U ++ suf) = U ++ scanRepC q rep suf := by
              intro suf
              apply scanRepC_append_inert
              intro j hj
              have hj3 : j < 3 := by
                rw [← hU3]
                exact hj
              exact no_match_at_image_off hUfull hj
                (F.url_clash j hj3).1 (F.url_clash j hj3).2 suf
            have hinertV : ∀ suf,
                scanRepC q rep (V ++ suf) = V ++ scanRepC q rep suf := by
              intro suf
              apply scanRepC_append_inert
              intro j hj
              exact no_match_in_ws hqlit hqws hVws suf j hj
            cases zz with
            | nil =>
              rw [hcs0, hyz, hzUv, hvV, List.append_nil, hinertX,
                hinertW, hinertU,
                scanRepC_id_of_no_match
                  (hasMatchC_allWs hqlit hqws hVws), hcons]
              have h5 := matchLenImport_red3 hfull hWws hWne hUfull hVws
                (z := []) rfl (fun e u heq => absurd heq (by simp))
              rw [List.append_nil] at h5
              exact h5
            | cons e v2 =>
              by_cases hepar : e = '('
              · subst hepar
                have hshape0 : c :: cs =
                    (x0 :: X') ++ (W ++ (U ++ (V ++ '(' :: v2))) := by
                  rw [hxy, hyz, hzUv, hvV]
                have hps : parScan v2 = none := by
                  have h2 := h
                  rw [hshape0] at h2
                  have h3 : matchLenImport
                      ((x0 :: X') ++ (W ++ (U ++ (V ++ '(' :: v2)))) =
                      none := h2
                  rw [matchLenImport_red4 hfull hWws hWne hUfull hVws]
                    at h3
                  rwa [Option.map_eq_none'] at h3
                have hpar_none : matchLenC q ('(' :: v2) = none := by
                  apply matchLenC_none_of_not_pre
                  exact hqpar v2
                rw [hcs0, hyz, hzUv, hvV, hinertX, hinertW, hinertU,
                  hinertV, scanRepC_cons_none hpar_none, hcons]
                show matchLenImport ((x0 :: X') ++
                  (W ++ (U ++ (V ++ '(' :: scanRepC q rep v2)))) = none
                rw [matchLenImport_red4 hfull hWws hWne hUfull hVws]
                have hfree : (scanRepC q rep v2).all
                    (fun c2 => c2 ≠ ')') = true :=
                  all_ne_scanRepC F.rep_no_par (parScan_none_iff.mp hps)
                rw [parScan_none_iff.mpr hfree]
                rfl
              · have he_ws : isJsWs e = false := wsLen_zero_head hzz0
                rw [hcs0, hyz, hzUv, hvV, hinertX, hinertW, hinertU,
                  hinertV]
                cases hm2 : matchLenC q (e :: v2) with
                | none =>
                  rw [scanRepC_cons_none hm2, hcons]
                  show matchLenImport ((x0 :: X') ++
                    (W ++ (U ++ (V ++ e :: scanRepC q rep v2)))) = none
                  exact matchLenImport_red3 hfull hWws hWne hUfull hVws
                    (wsLen_cons_of_not_ws he_ws _)
                    (fun e' u' heq => by
                      injection heq with h1 _
                      rw [← h1]
                      exact hepar)
                | some n =>
                  rw [scanRepC_cons_match hm2, hcons]
                  obtain ⟨T, hT⟩ : ∃ T,
                      scanRepC q rep (v2.drop (n - 1)) = T := ⟨_, rfl⟩
                  rw [hT, hrepc0, List.cons_append]
                  show matchLenImport ((x0 :: X') ++
                    (W ++ (U ++ (V ++ '/' :: (rr0 ++ T))))) = none
                  exact matchLenImport_red3 hfull hWws hWne hUfull hVws
                    (wsLen_cons_of_not_ws (by decide) _)
                    (fun e' u' heq => by
                      injection heq with h1 _
                      rw [← h1]
                      decide)
          · rw [Bool.not_eq_true] at hurl
            rw [hcs0, hyz, hinertX, hinertW]
            cases z with
            | nil =>
              rw [scanRepC_nil, hcons]
              exact matchLenImport_red2 hfull hWws hWne rfl (by decide)
            | cons e v =>
              have he_ws : isJsWs e = false := wsLen_zero_head hz0
              cases hm2 : matchLenC q (e :: v) with
              | none =>
                rw [scanRepC_cons_none hm2, hcons]
                refine matchLenImport_red2 hfull hWws hWne
                  (wsLen_cons_of_not_ws he_ws _) ?_
                by_contra hpp2
                rw [Bool.not_eq_false] at hpp2
                have hsplit : (ciEq 'u' e &&
                    ciPre ['r', 'l'] (scanRepC q rep v)) = true := hpp2
                rw [Bool.and_eq_true] at hsplit
                have hrl : ciPre ['r', 'l'] v = true := by
                  apply fragPresC F.rep_head ?_ hsplit.2
                  intro d hd
                  rcases List.mem_cons.mp hd with hd1 | hd1
                  · rw [hd1]
                    decide
                  · rcases List.mem_cons.mp hd1 with hd2 | hd2
                    · rw [hd2]
                      decide
                    · exact absurd hd2 (by simp)
                have hcontr : ciPre "url".data (e :: v) = true := by
                  show (ciEq 'u' e && ciPre ['r', 'l'] v) = true
                  rw [Bool.and_eq_true]
                  exact ⟨hsplit.1, hrl⟩
                rw [hurl] at hcontr
                exact Bool.noConfusion hcontr
              | some n =>
                rw [scanRepC_cons_match hm2, hcons]
                obtain ⟨T, hT⟩ : ∃ T,
                    scanRepC q rep (v.drop (n - 1)) = T := ⟨_, rfl⟩
                rw [hT, hrepc0, List.cons_append]
                refine matchLenImport_red2 hfull hWws hWne
                  (wsLen_cons_of_not_ws (by decide) _) ?_
                show (ciEq 'u' '/' &&
                  ciPre ['r', 'l'] (rr0 ++ T)) = false
                rw [show ciEq 'u' '/' = false by decide]
                rfl

/-- A CSS scan with `q` eliminates `q`-matches and preserves the absence
of `p`-matches. -/
theorem hasMatchC_scanRepC_false {p q : CssPat} {rep : List Char}
    (F : CssFacts p q rep) {s : List Char}
    (hcase : q = p ∨ hasMatchC p s = false) :
    hasMatchC p (scanRepC q rep s) = false := by
  generalize hlen : s.length = L
  induction L using Nat.strong_induction_on generalizing s with
  | _ L ih =>
    cases s with
    | nil => rfl
    | cons c cs =>
      rw [List.length_cons] at hlen
      cases hm : matchLenC q (c :: cs) with
      | some n =>
        rw [scanRepC_cons_match hm]
        apply hasMatchC_append_false
        · intro r hr hne
          apply matchLenC_none_of_not_pre
          by_contra hpp
          rw [Bool.not_eq_false] at hpp
          rcases ciPre_append_strong hpp with h1 | ⟨h2, _⟩
          · rw [(F.rep_lit_clash r hr hne).1] at h1
            exact Bool.noConfusion h1
          · rw [(F.rep_lit_clash r hr hne).2] at h2
            exact Bool.noConfusion h2
        · refine ih (cs.drop (n - 1)).length ?_ ?_ rfl
          · rw [List.length_drop]
            have := matchLenC_pos hm
            omega
          · rcases hcase with rfl | hs
            · exact Or.inl rfl
            · rw [hasMatchC_cons_false] at hs
              exact Or.inr (hasMatchC_drop (n - 1) hs.2)
      | none =>
        rw [scanRepC_cons_none hm, hasMatchC_cons_false]
        have hmn : matchLenC p (c :: cs) = none := by
          rcases hcase with rfl | hs
          · exact hm
          · exact (hasMatchC_cons_false.mp hs).1
        constructor
        · exact matchLenC_none_scanRepC F hmn
        · refine ih cs.length (by omega) ?_ rfl
          rcases hcase with rfl | hs
          · exact Or.inl rfl
          · exact Or.inr (hasMatchC_cons_false.mp hs).2

/-- A guarded CSS sanitize step leaves no match of its own pattern and
preserves the absence of matches of any other pattern. -/
theorem sanitizeStepC_no_match {p q : CssPat}
    (F : CssFacts p q unsafeCssComment) {s : List Char}
    (hcase : q = p ∨ hasMatchC p s = false) :
    hasMatchC p (sanitizeStepC s q) = false := by
  unfold sanitizeStepC
  split
  · exact hasMatchC_scanRepC_false F hcase
  · rename_i hg
    rw [Bool.not_eq_true] at hg
    rcases hcase with rfl | hs
    · exact hg
    · exact hs

/-- Absence of `p`-matches survives folding CSS sanitize steps over any
list of dangerous CSS patterns. -/
theorem foldl_sanitizeStepC_pres {p : CssPat}
    (hp : p ∈ dangerousCssPatterns) :
    ∀ (ps : List CssPat) (s : List Char),
      (∀ q ∈ ps, q ∈ dangerousCssPatterns) → hasMatchC p s = false →
      hasMatchC p (ps.foldl sanitizeStepC s) = false := by
  intro ps
  induction ps with
  | nil =>
    intro s _ h
    exact h
  | cons q ps ih =>
    intro s hsub h
    rw [List.foldl_cons]
    apply ih _ (fun r hr => hsub r (List.mem_cons_of_mem q hr))
    exact sanitizeStepC_no_match
      (cssFacts_of_bool
        (css_side_facts p hp q (hsub q (List.mem_cons_self q ps))))
      (Or.inr h)

/-- After folding the CSS sanitize steps over a pattern list drawn from
the dangerous CSS patterns, none of its patterns matches the result. -/
theorem foldl_sanitizeStepC_no_match :
    ∀ (ps : List CssPat) (s : List Char),
      (∀ q ∈ ps, q ∈ dangerousCssPatterns) →
      ∀ p ∈ ps, hasMatchC p (ps.foldl sanitizeStepC s) = false := by
  intro ps
  induction ps with
  | nil =>
    intro s _ p hp
    exact absurd hp (by simp)
  | cons q ps ih =>
    intro s hsub p hp
    rw [List.foldl_cons]
    rcases List.mem_cons.mp hp with rfl | hp2
    · apply foldl_sanitizeStepC_pres (hsub p (List.mem_cons_self p ps)) ps
        _ (fun r hr => hsub r (List.mem_cons_of_mem p hr))
      exact sanitizeStepC_no_match
        (cssFacts_of_bool
          (css_side_facts p (hsub p (List.mem_cons_self p ps))
            p (hsub p (List.mem_cons_self p ps))))
        (Or.inl rfl)
    · exact ih _ (fun r hr => hsub r (List.mem_cons_of_mem q hr)) p hp2

/-- No dangerous CSS pattern matches the output of the style
sanitizer. -/
theorem sanitizeCSS_no_match (css : String) :
    ∀ p ∈ dangerousCssPatterns,
      hasMatchC p (validateAndSanitizeCSS css).data = false := by
  intro p hp
  unfold validateAndSanitizeCSS
  split
  · revert hp
    revert p
    decide
  · show hasMatchC p
      (dangerousCssPatterns.foldl sanitizeStepC css.data) = false
    exact foldl_sanitizeStepC_no_match dangerousCssPatterns css.data
      (fun q hq => hq) p hp

/-- A CSS replace on a list with a match leaves some non-whitespace
output (the replacement comment starts with `/`). -/
theorem scanRepC_not_allWs {p : CssPat} {rep s : List Char}
    (hrep : allWs rep = false) (h : hasMatchC p s = true) :
    allWs (scanRepC p rep s) = false := by
  generalize hlen : s.length = L
  induction L using Nat.strong_induction_on generalizing s with
  | _ L ih =>
    cases s with
    | nil => exact absurd h (by simp [hasMatchC])
    | cons c cs =>
      rw [List.length_cons] at hlen
      cases hm : matchLenC p (c :: cs) with
      | some n =>
        rw [scanRepC_cons_match hm]
        unfold allWs
        rw [List.all_append]
        unfold allWs at hrep
        rw [hrep]
        rfl
      | none =>
        rw [scanRepC_cons_none hm]
        rw [hasMatchC, hm] at h
        simp only [Option.isSome_none, Bool.false_or] at h
        unfold allWs
        rw [List.all_cons]
        have := ih cs.length (by omega) h rfl
        unfold allWs at this
        rw [this, Bool.and_false]

/-- A CSS sanitize step never turns non-blank content blank. -/
theorem sanitizeStepC_not_allWs {s : List Char} {q : CssPat}
    (h : allWs s = false) : allWs (sanitizeStepC s q) = false := by
  unfold sanitizeStepC
  split
  · rename_i hg
    exact scanRepC_not_allWs (by decide) hg
  · exact h

/-- Folding CSS sanitize steps never turns non-blank content blank. -/
theorem foldl_sanitizeStepC_not_allWs :
    ∀ (ps : List CssPat) (s : List Char), allWs s = false →
      allWs (ps.foldl sanitizeStepC s) = false := by
  intro ps
  induction ps with
  | nil =>
    intro s h
    exact h
  | cons q ps ih =>
    intro s h
    rw [List.foldl_cons]
    exact ih _ (sanitizeStepC_not_allWs h)

/-- Running a list with no CSS matches through the sanitize fold is the
identity. -/
theorem foldl_sanitizeStepC_id :
    ∀ (ps : List CssPat) (s : List Char),
      (∀ p ∈ ps, hasMatchC p s = false) →
      ps.foldl sanitizeStepC s = s := by
  intro ps
  induction ps with
  | nil =>
    intro s _
    rfl
  | cons q ps ih =>
    intro s h
    rw [List.foldl_cons]
    have hq : sanitizeStepC s q = s := by
      unfold sanitizeStepC
      rw [h q (List.mem_cons_self q ps)]
      simp
    rw [hq]
    exact ih s fun p hp => h p (List.mem_cons_of_mem q hp)

/-- The style sanitizer is idempotent. -/
theorem validateAndSanitizeCSS_idem (css : String) :
    validateAndSanitizeCSS (validateAndSanitizeCSS css) =
      validateAndSanitizeCSS css := by
  by_cases hb : isBlank css = true
  · have h1 : validateAndSanitizeCSS css = "/* No CSS content */" := by
      rw [validateAndSanitizeCSS, if_pos hb]
    rw [h1]
    decide
  · rw [Bool.not_eq_true] at hb
    have hout : validateAndSanitizeCSS css =
        ⟨dangerousCssPatterns.foldl sanitizeStepC css.data⟩ := by
      rw [validateAndSanitizeCSS, if_neg (by simp [hb])]
    rw [hout]
    have hnb : isBlank
        (⟨dangerousCssPatterns.foldl sanitizeStepC css.data⟩ :
          String) = false := by
      show allWs (dangerousCssPatterns.foldl sanitizeStepC css.data) =
        false
      exact foldl_sanitizeStepC_not_allWs dangerousCssPatterns css.data hb
    rw [validateAndSanitizeCSS, if_neg (by simp [hnb])]
    show (⟨dangerousCssPatterns.foldl sanitizeStepC
      (dangerousCssPatterns.foldl sanitizeStepC css.data)⟩ : String) = _
    refine congrArg String.mk ?_
    apply foldl_sanitizeStepC_id
    intro p hp
    have := sanitizeCSS_no_match css p hp
    rw [hout] at this
    exact this

/-- C7: both sanitizers are idempotent — applying `sanitizeMarkup`
(`validateAndSanitizeHTML`) twice gives the same result as applying it
once, because the inserted removal comments are never re-matched by any
dangerous pattern, and the same holds for `sanitizeStyle`
(`validateAndSanitizeCSS`) on every style string. -/
theorem c7_sanitizer_idempotence :
    (∀ m : String, validateAndSanitizeHTML (validateAndSanitizeHTML m) =
      validateAndSanitizeHTML m) ∧
    (∀ css : String,
      validateAndSanitizeCSS (validateAndSanitizeCSS css) =
        validateAndSanitizeCSS css) :=
  ⟨validateAndSanitizeHTML_idem, validateAndSanitizeCSS_idem⟩

set_option maxRecDepth 10000 in
/-- C10, amended: the sanitizer removes every complete
`<form ...>…</form>` block, replacing it with the fixed removal comment
— no match of the form pattern ever survives in sanitized output — but
only complete blocks: a `<form>` opener without its closer is not
matched (see the counterexample), so it is form blocks, not every
`<form>` tag, that cannot survive. -/
theorem c10_form_removal_amended :
    (∀ m : String,
      hasMatch formPat (validateAndSanitizeHTML m).data = false) ∧
    validateAndSanitizeHTML "<form a=1><input></form>x" =
      "<!-- Unsafe element removed for security -->x" := by
  constructor
  · intro m
    exact sanitizeHTML_no_match m formPat
      (List.mem_cons_of_mem _ (List.mem_cons_of_mem _
        (List.mem_cons_of_mem _ (List.mem_cons_of_mem _
          (List.mem_cons_self _ _)))))
  · decide
